import Mathlib

/-!
Verification of the TokTok/ci-tools release-orchestration code.

Strings are modelled as `List Char` in the parsing-heavy parts (with
`String` wrappers mirroring the Python signatures); Python line
separators are modelled as the newline character.
-/

namespace CiTools

/-! ## Decimal numerals

Python formats integers into f-strings as canonical decimal numerals and
reads them back with `int(...)`.  `natRepr` is the decimal numeral of a
natural number as a character list, `digitsToNat` is `int` on a digit
string. -/

/-- The decimal digit character of `n % 10`. -/
def toDigitChar (n : Nat) : Char :=
  match n with
  | 0 => '0' | 1 => '1' | 2 => '2' | 3 => '3' | 4 => '4'
  | 5 => '5' | 6 => '6' | 7 => '7' | 8 => '8' | 9 => '9'
  | _ => '*'

/-- Fuel-driven digit accumulator: digits of `n` (most significant first)
prepended to `acc`.  `fuel ≥ n` makes the result fuel-independent. -/
def natReprGo : Nat → Nat → List Char → List Char
  | 0, _, acc => acc
  | fuel + 1, n, acc =>
    if n = 0 then acc
    else natReprGo fuel (n / 10) (toDigitChar (n % 10) :: acc)

/-- Decimal numeral of `n`, as produced by Python `str`/f-strings. -/
def natRepr (n : Nat) : List Char :=
  if n = 0 then ['0'] else natReprGo n n []

/-- Decimal numeral of `n` as a `String`. -/
def natStr (n : Nat) : String := ⟨natRepr n⟩

/-- Python `int` on a (nonempty) digit string. -/
def digitsToNat (l : List Char) : Nat :=
  l.foldl (fun a c => 10 * a + (c.toNat - 48)) 0

theorem toDigitChar_isDigit {m : Nat} (h : m < 10) : (toDigitChar m).isDigit = true := by
  interval_cases m <;> decide

theorem toDigitChar_toNat {m : Nat} (h : m < 10) : (toDigitChar m).toNat - 48 = m := by
  interval_cases m <;> decide

/-- The digits of positive `n`, i.e. `natReprGo` with just-enough fuel. -/
def natDigitsPos (n : Nat) : List Char := natReprGo n n []

theorem natReprGo_eq : ∀ (fuel n : Nat) (acc : List Char), n ≤ fuel →
    natReprGo fuel n acc = natDigitsPos n ++ acc := by
  intro fuel
  induction fuel using Nat.strong_induction_on with
  | _ fuel ih =>
    intro n acc h
    cases fuel with
    | zero =>
      have : n = 0 := Nat.le_zero.mp h
      simp [natReprGo, natDigitsPos, this]
    | succ f =>
      by_cases hn : n = 0
      · simp [natReprGo, natDigitsPos, hn]
      · have hdiv : n / 10 < n := Nat.div_lt_self (Nat.pos_of_ne_zero hn) (by decide)
        have h1 : natReprGo (f + 1) n acc
            = natDigitsPos (n / 10) ++ (toDigitChar (n % 10) :: acc) := by
          simp only [natReprGo]
          rw [if_neg hn]
          exact ih f (Nat.lt_succ_self f) _ _ (by omega)
        have h2 : natDigitsPos n = natDigitsPos (n / 10) ++ [toDigitChar (n % 10)] := by
          obtain ⟨m, rfl⟩ : ∃ m, n = m + 1 := ⟨n - 1, by omega⟩
          show natReprGo (m + 1) (m + 1) [] = _
          simp only [natReprGo]
          rw [if_neg hn]
          exact ih m (by omega) _ _ (by omega)
        rw [h1, h2]
        simp

theorem natDigitsPos_unfold {n : Nat} (h : n ≠ 0) :
    natDigitsPos n = natDigitsPos (n / 10) ++ [toDigitChar (n % 10)] := by
  have hdiv : n / 10 < n := Nat.div_lt_self (Nat.pos_of_ne_zero h) (by decide)
  obtain ⟨m, rfl⟩ : ∃ m, n = m + 1 := ⟨n - 1, (Nat.succ_pred_eq_of_pos (Nat.pos_of_ne_zero h)).symm⟩
  rw [natDigitsPos, natReprGo, if_neg h, natReprGo_eq _ _ _ (Nat.le_of_lt_succ hdiv)]

theorem natDigitsPos_ne_nil {n : Nat} (h : n ≠ 0) : natDigitsPos n ≠ [] := by
  rw [natDigitsPos_unfold h]
  simp

theorem natRepr_eq_pos {n : Nat} (h : n ≠ 0) : natRepr n = natDigitsPos n := by
  simp [natRepr, h, natDigitsPos]

theorem natRepr_ne_nil (n : Nat) : natRepr n ≠ [] := by
  by_cases h : n = 0
  · simp [natRepr, h]
  · rw [natRepr_eq_pos h]; exact natDigitsPos_ne_nil h

theorem natDigitsPos_digits (n : Nat) : ∀ c ∈ natDigitsPos n, c.isDigit = true := by
  induction n using Nat.strong_induction_on with
  | _ n ih =>
    by_cases h : n = 0
    · subst h; simp [natDigitsPos, natReprGo]
    · rw [natDigitsPos_unfold h]
      intro c hc
      rcases List.mem_append.mp hc with hc | hc
      · exact ih (n / 10) (Nat.div_lt_self (Nat.pos_of_ne_zero h) (by decide)) c hc
      · rcases List.mem_singleton.mp hc with rfl
        exact toDigitChar_isDigit (Nat.mod_lt _ (by decide))

theorem natRepr_digits (n : Nat) : ∀ c ∈ natRepr n, c.isDigit = true := by
  by_cases h : n = 0
  · simp [natRepr, h]
  · rw [natRepr_eq_pos h]; exact natDigitsPos_digits n

theorem digitsToNat_append (a b : List Char) :
    digitsToNat (a ++ b) = b.foldl (fun x c => 10 * x + (c.toNat - 48)) (digitsToNat a) := by
  simp [digitsToNat, List.foldl_append]

theorem digitsToNat_concat (a : List Char) (c : Char) :
    digitsToNat (a ++ [c]) = 10 * digitsToNat a + (c.toNat - 48) := by
  simp [digitsToNat_append, List.foldl]

theorem digitsToNat_natDigitsPos (n : Nat) : digitsToNat (natDigitsPos n) = n := by
  induction n using Nat.strong_induction_on with
  | _ n ih =>
    by_cases h : n = 0
    · subst h; simp [natDigitsPos, natReprGo, digitsToNat]
    · rw [natDigitsPos_unfold h, digitsToNat_concat,
        ih (n / 10) (Nat.div_lt_self (Nat.pos_of_ne_zero h) (by decide)),
        toDigitChar_toNat (Nat.mod_lt _ (by decide))]
      omega

theorem digitsToNat_natRepr (n : Nat) : digitsToNat (natRepr n) = n := by
  by_cases h : n = 0
  · simp [natRepr, h, digitsToNat]
  · rw [natRepr_eq_pos h]; exact digitsToNat_natDigitsPos n

/-! ## `takeDigits`: maximal-munch of a digit prefix (regex `\d+`/`\d*`). -/

/-- Split a character list into its maximal digit prefix and the rest. -/
def takeDigits : List Char → List Char × List Char
  | [] => ([], [])
  | c :: cs =>
    if c.isDigit then
      let p := takeDigits cs
      (c :: p.1, p.2)
    else ([], c :: cs)

theorem takeDigits_append (d rest : List Char) (hd : ∀ c ∈ d, c.isDigit = true)
    (hrest : ∀ c, rest.head? = some c → c.isDigit = false) :
    takeDigits (d ++ rest) = (d, rest) := by
  induction d with
  | nil =>
    cases rest with
    | nil => simp [takeDigits]
    | cons c cs =>
      have : c.isDigit = false := hrest c rfl
      simp [takeDigits, this]
  | cons c cs ih =>
    have hc : c.isDigit = true := hd c (List.mem_cons_self _ _)
    have ih' := ih (fun x hx => hd x (List.mem_cons_of_mem _ hx))
    simp [takeDigits, hc, ih']

/-! ## `Version` (tools/lib/git.py, lines 17-54) -/

/-- `Version` dataclass: major, minor, patch, optional release-candidate
number.  Components are naturals because the regex only admits digits. -/
structure Version where
  major : Nat
  minor : Nat
  patch : Nat
  rc : Option Nat
deriving DecidableEq

/-- `Version.__str__`: `v{major}.{minor}.{patch}` plus `-rc.{rc}` when the
rc number is present (f-string decimal formatting is `natRepr`). -/
def Version.str (v : Version) : List Char :=
  'v' :: natRepr v.major ++ '.' :: natRepr v.minor ++ '.' :: natRepr v.patch ++
    (match v.rc with
     | none => []
     | some r => '-' :: 'r' :: 'c' :: '.' :: natRepr r)

/-- `Version.__str__` at the `String` level. -/
def versionStr (v : Version) : String := ⟨v.str⟩

/-- `Version.__lt__`: lexicographic by major, minor, patch; at equal
major.minor.patch a version without rc never sorts below anything with the
same numbers, a version with rc sorts below the rc-less one, and two rc
versions compare by rc number. -/
def Version.lt (a b : Version) : Bool :=
  if a.major ≠ b.major then decide (a.major < b.major)
  else if a.minor ≠ b.minor then decide (a.minor < b.minor)
  else if a.patch ≠ b.patch then decide (a.patch < b.patch)
  else
    match a.rc, b.rc with
    | none, _ => false
    | some _, none => true
    | some x, some y => decide (x < y)

/-- `parse_version`'s regex `v(\d+)\.(\d+)(?:\.(\d+))?(?:-rc\.(\d+))?`
applied with `re.match` (anchored at the start only): an optional group is
tried and, on failure, skipped with the scan position restored.  A missing
patch group yields 0, a missing rc group yields `none`.  Returns `none`
where the Python raises `ValueError` (no match). -/
def parseVersionChars (s : List Char) : Option Version :=
  match s with
  | c0 :: r0 =>
    if c0 = 'v' then
      let p1 := takeDigits r0
      if p1.1.isEmpty then none
      else
        match p1.2 with
        | c1 :: r2 =>
          if c1 = '.' then
            let p2 := takeDigits r2
            if p2.1.isEmpty then none
            else
              -- optional `(?:\.(\d+))?`
              let patchStep : Option (List Char) × List Char :=
                match p2.2 with
                | c2 :: r3 =>
                  if c2 = '.' then
                    let p3 := takeDigits r3
                    if p3.1.isEmpty then (none, p2.2) else (some p3.1, p3.2)
                  else (none, p2.2)
                | [] => (none, p2.2)
              -- optional `(?:-rc\.(\d+))?`
              let rcDigits : Option (List Char) :=
                if ['-', 'r', 'c', '.'].isPrefixOf patchStep.2 then
                  let p4 := takeDigits (patchStep.2.drop 4)
                  if p4.1.isEmpty then none else some p4.1
                else none
              some
                { major := digitsToNat p1.1
                  minor := digitsToNat p2.1
                  patch := (patchStep.1.map digitsToNat).getD 0
                  rc := rcDigits.map digitsToNat }
          else none
        | [] => none
    else none
  | [] => none

/-- `parse_version` at the `String` level. -/
def parse_version (s : String) : Option Version := parseVersionChars s.data

/-- `re.match(VERSION_REGEX, s)` with `VERSION_REGEX =
v\d+\.\d+(?:\.\d+)?(?:-rc\.\d+)?`: an (unanchored-at-the-end) prefix match
succeeds exactly when `parse_version`'s regex matches, i.e. when
`parse_version` does not raise. -/
def versionRegexMatch (s : String) : Bool := (parse_version s).isSome

theorem takeDigits_natRepr (n : Nat) (rest : List Char)
    (hrest : ∀ c, rest.head? = some c → c.isDigit = false) :
    takeDigits (natRepr n ++ rest) = (natRepr n, rest) :=
  takeDigits_append _ _ (natRepr_digits n) hrest

theorem natRepr_not_isEmpty (n : Nat) : (natRepr n).isEmpty = false := by
  have := natRepr_ne_nil n
  cases h : natRepr n with
  | nil => exact absurd h this
  | cons c cs => simp [List.isEmpty]

theorem takeDigits_natRepr_nil (n : Nat) : takeDigits (natRepr n) = (natRepr n, []) := by
  have h := takeDigits_natRepr n [] (by intro c hc; simp at hc)
  simpa using h

/-- Parsing the canonical rendering of any `Version` recovers it exactly. -/
theorem parseVersionChars_str (v : Version) : parseVersionChars v.str = some v := by
  obtain ⟨M, m, p, rc⟩ := v
  cases rc with
  | none =>
    rw [show Version.str ⟨M, m, p, none⟩
        = 'v' :: (natRepr M ++ ('.' :: (natRepr m ++ ('.' :: natRepr p)))) by
      simp [Version.str]]
    simp only [parseVersionChars]
    rw [takeDigits_natRepr _ _ (by intro c hc; simp at hc; subst hc; decide)]
    simp only [natRepr_not_isEmpty, Bool.false_eq_true, if_false]
    rw [takeDigits_natRepr _ _ (by intro c hc; simp at hc; subst hc; decide)]
    simp [natRepr_not_isEmpty, digitsToNat_natRepr, takeDigits_natRepr_nil,
      List.isPrefixOf]
  | some r =>
    rw [show Version.str ⟨M, m, p, some r⟩
        = 'v' :: (natRepr M ++ ('.' :: (natRepr m ++ ('.' :: (natRepr p ++
          ('-' :: 'r' :: 'c' :: '.' :: natRepr r)))))) by simp [Version.str]]
    simp only [parseVersionChars]
    rw [takeDigits_natRepr _ _ (by intro c hc; simp at hc; subst hc; decide)]
    simp only [natRepr_not_isEmpty, Bool.false_eq_true, if_false]
    rw [takeDigits_natRepr _ _ (by intro c hc; simp at hc; subst hc; decide)]
    simp only [natRepr_not_isEmpty, Bool.false_eq_true, if_false]
    have hp := takeDigits_natRepr p ('-' :: 'r' :: 'c' :: '.' :: natRepr r)
      (by intro c hc; simp at hc; subst hc; decide)
    simp [hp, natRepr_not_isEmpty, digitsToNat_natRepr, takeDigits_natRepr_nil,
      List.isPrefixOf]

theorem parse_version_versionStr (v : Version) : parse_version (versionStr v) = some v :=
  parseVersionChars_str v

/-- Parsing a canonical `vMAJOR.MINOR-rc.N` string (patch omitted): the
optional patch group fails on `-`, so patch defaults to 0. -/
theorem parseVersionChars_noPatch (M m r : Nat) :
    parseVersionChars ('v' :: (natRepr M ++ ('.' :: (natRepr m ++
        ('-' :: 'r' :: 'c' :: '.' :: natRepr r)))))
      = some ⟨M, m, 0, some r⟩ := by
  simp only [parseVersionChars]
  rw [takeDigits_natRepr _ _ (by intro c hc; simp at hc; subst hc; decide)]
  simp only [natRepr_not_isEmpty, Bool.false_eq_true, if_false]
  rw [takeDigits_natRepr _ _ (by intro c hc; simp at hc; subst hc; decide)]
  simp [natRepr_not_isEmpty, digitsToNat_natRepr, takeDigits_natRepr_nil,
    List.isPrefixOf]

end CiTools

namespace CiTools

/-! ## Claim C2: parse/format round trip -/

/-- C2 counterexample: the round trip is not the identity on version
strings that omit the patch component — `v1.2` parses and re-formats to
`v1.2.0`, not to itself (patch is back-filled with 0 by `parse_version`
and always printed by `Version.__str__`). -/
theorem C2_roundtrip_counterexample :
    (parse_version "v1.2").map versionStr = some "v1.2.0" ∧
      ("v1.2.0" : String) ≠ "v1.2" := by
  decide

/-- C2 (amended): on version strings with an explicit patch component and
canonical decimal numerals — exactly the strings `Version.__str__`
produces, `vMAJOR.MINOR.PATCH[-rc.N]` — parsing followed by formatting is
the identity (and parsing recovers the exact components). -/
theorem C2_parse_format_roundtrip (v : Version) :
    (parse_version (versionStr v)).map versionStr = some (versionStr v) ∧
      parse_version (versionStr v) = some v := by
  refine ⟨?_, parse_version_versionStr v⟩
  rw [parse_version_versionStr v]
  rfl

/-! ## Claim C5: the `Version.__lt__` order -/

/-- C5: `Version.__lt__` is a total strict order and is lexicographic on
(major, minor, patch); at equal major.minor.patch an rc-less version is
never below anything with the same numbers (it sorts after every rc), and
two rc versions compare by ascending rc number. -/
theorem C5_version_order :
    (∀ a b : Version, Version.lt a b = true ∨ Version.lt b a = true ∨ a = b) ∧
      (∀ a b : Version, Version.lt a b = true ↔
        (a.major < b.major ∨ (a.major = b.major ∧
          (a.minor < b.minor ∨ (a.minor = b.minor ∧
            (a.patch < b.patch ∨ (a.patch = b.patch ∧
              (match a.rc, b.rc with
               | none, _ => False
               | some _, none => True
               | some x, some y => x < y)))))))) := by
  constructor
  · rintro ⟨aM, am, ap, arc⟩ ⟨bM, bm, bp, brc⟩
    simp only [Version.lt, Version.mk.injEq]
    rcases arc with _ | x <;> rcases brc with _ | y <;>
      · split_ifs <;> simp_all <;> omega
  · rintro ⟨aM, am, ap, arc⟩ ⟨bM, bm, bp, brc⟩
    simp only [Version.lt]
    rcases arc with _ | x <;> rcases brc with _ | y <;>
      · split_ifs <;> simp_all

/-! ## Claim C3: milestone-lookup version in `stage_assign_milestone` -/

/-- The milestone title that `stage_assign_milestone`
(tools/create_release.py, lines 306-318) looks up for the tracking issue:
no lookup without an issue; the version itself for production runs; for
release candidates the string `f"v{v.major}.{v.minor}.{v.patch}"` of the
parsed version (`none` where `parse_version` raises). -/
def stage_assign_milestone_lookup (issue : Nat) (production : Bool)
    (version : String) : Option String :=
  if issue = 0 then none
  else if production then some version
  else (parse_version version).map (fun v => versionStr ⟨v.major, v.minor, v.patch, none⟩)

/-- C3 counterexample: for the release candidate `v1.2.3-rc.1` the
milestone looked up is `v1.2.3` — the parsed patch component is kept, not
normalized to 0, so the title is not `v1.2.0`. -/
theorem C3_milestone_counterexample :
    stage_assign_milestone_lookup 1 false "v1.2.3-rc.1" = some "v1.2.3" ∧
      some ("v1.2.3" : String) ≠ some ("v1.2.0" : String) := by
  decide

/-- C3 (amended): for a release-candidate run with a tracking issue the
milestone lookup strips the `-rc.N` suffix and keeps the parsed patch
component, yielding `vMAJOR.MINOR.PATCH`; the patch becomes 0 only when
the version string omits it (`vMAJOR.MINOR-rc.N`). -/
theorem C3_milestone_lookup (issue : Nat) (h : issue ≠ 0) (M m p r : Nat) :
    stage_assign_milestone_lookup issue false (versionStr ⟨M, m, p, some r⟩)
        = some (versionStr ⟨M, m, p, none⟩) ∧
      stage_assign_milestone_lookup issue false
          ⟨'v' :: (natRepr M ++ ('.' :: (natRepr m ++
            ('-' :: 'r' :: 'c' :: '.' :: natRepr r))))⟩
        = some (versionStr ⟨M, m, 0, none⟩) := by
  constructor
  · simp only [stage_assign_milestone_lookup, if_neg h]
    rw [if_neg (by simp), parse_version_versionStr]
    rfl
  · simp only [stage_assign_milestone_lookup, if_neg h]
    rw [if_neg (by simp)]
    show (parseVersionChars _).map _ = _
    rw [parseVersionChars_noPatch]
    rfl

/-- C3 witness: the amended lookup evaluated at issue 1 and `v1.2.3-rc.4`
(explicit patch) and `v9.8-rc.7` (omitted patch). -/
theorem C3_milestone_lookup_witness :
    stage_assign_milestone_lookup 1 false (versionStr ⟨1, 2, 3, some 4⟩)
        = some (versionStr ⟨1, 2, 3, none⟩) ∧
      stage_assign_milestone_lookup 1 false
          ⟨'v' :: (natRepr 9 ++ ('.' :: (natRepr 8 ++
            ('-' :: 'r' :: 'c' :: '.' :: natRepr 7))))⟩
        = some (versionStr ⟨9, 8, 0, none⟩) :=
  C3_milestone_lookup 1 (by decide) 1 2 3 4 |>.imp id
    (fun _ => (C3_milestone_lookup 1 (by decide) 9 8 0 7).2)

/-! ## Claim C10: `Git.release_tags` / `Git.release_tag_exists`
(tools/lib/git.py, lines 150-170) -/

/-- Python substring test `needle in hay` on character lists. -/
def containsSub (needle : List Char) : List Char → Bool
  | [] => needle.isPrefixOf []
  | c :: cs => needle.isPrefixOf (c :: cs) || containsSub needle cs

/-- The part of `l` before the first occurrence of `sep` (the whole list
when `sep` does not occur): `l.split(sep)[0]`. -/
def splitFirstAux (sep : List Char) : List Char → List Char
  | [] => []
  | c :: cs => if sep.isPrefixOf (c :: cs) then [] else c :: splitFirstAux sep cs

/-- `needle in hay` for strings. -/
def strContains (needle hay : String) : Bool := containsSub needle.data hay.data

/-- `hay.split(sep)[0]` for strings. -/
def strSplitFirst (sep hay : String) : String := ⟨splitFirstAux sep.data hay.data⟩

/-- Stable insertion (used to model Python `sorted`). -/
def insertBy (le : α → α → Bool) (x : α) : List α → List α
  | [] => [x]
  | y :: ys => if le x y then x :: y :: ys else y :: insertBy le x ys

/-- Stable insertion sort modelling Python `sorted(..., reverse=True,
key=parse_version)` (only ordering by the comparator matters here). -/
def sortBy (le : α → α → Bool) : List α → List α
  | [] => []
  | x :: xs => insertBy le x (sortBy le xs)

/-- The sort key `parse_version`; every sorted element matches the version
regex, so the default is never used. -/
def vKey (t : String) : Version := (parse_version t).getD ⟨0, 0, 0, none⟩

/-- Descending comparison on tags by parsed version (`reverse=True`). -/
def tagDescLe (a b : String) : Bool := ! Version.lt (vKey a) (vKey b)

/-- `Git.release_tags`: regex-matching merged tags sorted descending by
version; with `with_rc` (the default) release-candidate tags whose base
version (the part before `-rc.`) also exists as a production tag are
dropped; without `with_rc` all rc tags are dropped. -/
def release_tags (tags : List String) (with_rc : Bool) : List String :=
  let all_tags := sortBy tagDescLe (tags.filter versionRegexMatch)
  if !with_rc then all_tags.filter (fun t => !strContains "-rc." t)
  else
    let prod_versions := all_tags.filter (fun t => !strContains "-rc." t)
    all_tags.filter (fun t =>
      !strContains "-rc." t || !prod_versions.contains (strSplitFirst "-rc." t))

/-- `Git.release_tag_exists`: membership in `release_tags()` with default
arguments (`with_rc=True`). -/
def release_tag_exists (tags : List String) (tag : String) : Bool :=
  (release_tags tags true).contains tag

theorem mem_insertBy {le : α → α → Bool} {x a : α} {l : List α} :
    a ∈ insertBy le x l ↔ a = x ∨ a ∈ l := by
  induction l with
  | nil => simp [insertBy]
  | cons y ys ih =>
    by_cases h : le x y = true
    · simp [insertBy, h]
    · simp only [insertBy, if_neg h, List.mem_cons, ih]
      tauto

theorem mem_sortBy {le : α → α → Bool} {a : α} {l : List α} :
    a ∈ sortBy le l ↔ a ∈ l := by
  induction l with
  | nil => simp [sortBy]
  | cons x xs ih => simp [sortBy, mem_insertBy, ih]

theorem isPrefixOf_self_append (a b : List Char) : a.isPrefixOf (a ++ b) = true := by
  simp [List.isPrefixOf_iff_prefix]

theorem containsSub_of_occurrence (sep a b : List Char) :
    containsSub sep (a ++ sep ++ b) = true := by
  induction a with
  | nil =>
    cases h : sep ++ b with
    | nil => simp_all [containsSub]
    | cons c cs =>
      simp only [List.nil_append, h, containsSub]
      rw [← h, isPrefixOf_self_append]
      simp
  | cons c cs ih =>
    show (sep.isPrefixOf (c :: (cs ++ sep ++ b)) || containsSub sep (cs ++ sep ++ b))
        = true
    rw [ih]
    simp

theorem containsSub_eq_false {c0 : Char} {rest l : List Char} (h : c0 ∉ l) :
    containsSub (c0 :: rest) l = false := by
  induction l with
  | nil => simp [containsSub, List.isPrefixOf]
  | cons c cs ih =>
    have hc : c0 ≠ c := fun e => h (e ▸ List.mem_cons_self _ _)
    have hcs : c0 ∉ cs := fun e => h (List.mem_cons_of_mem _ e)
    simp [containsSub, List.isPrefixOf, ih hcs, hc, beq_eq_false_iff_ne]

theorem splitFirstAux_occurrence {c0 : Char} {rest a : List Char} (b : List Char)
    (h : c0 ∉ a) :
    splitFirstAux (c0 :: rest) (a ++ (c0 :: rest) ++ b) = a := by
  induction a with
  | nil =>
    have hp : ((c0 :: rest).isPrefixOf (c0 :: (rest ++ b))) = true :=
      isPrefixOf_self_append (c0 :: rest) b
    simp [splitFirstAux, hp]
  | cons c cs ih =>
    have hc : c0 ≠ c := fun e => h (e ▸ List.mem_cons_self _ _)
    have hcs : c0 ∉ cs := fun e => h (List.mem_cons_of_mem _ e)
    have hbeq : (c0 == c) = false := beq_eq_false_iff_ne.mpr hc
    have hnp : ((c0 :: rest).isPrefixOf (c :: (cs ++ (c0 :: rest) ++ b))) = false := by
      simp [List.isPrefixOf, hbeq]
    show splitFirstAux (c0 :: rest) (c :: (cs ++ (c0 :: rest) ++ b)) = c :: cs
    rw [show splitFirstAux (c0 :: rest) (c :: (cs ++ (c0 :: rest) ++ b))
        = if (c0 :: rest).isPrefixOf (c :: (cs ++ (c0 :: rest) ++ b)) then []
          else c :: splitFirstAux (c0 :: rest) (cs ++ (c0 :: rest) ++ b) from rfl]
    rw [hnp]
    simpa using ih hcs

/-- The characters of a production version string: `v`, digits and dots —
never a dash. -/
theorem dash_not_mem_prod_version (M m p : Nat) :
    '-' ∉ (versionStr ⟨M, m, p, none⟩).data := by
  intro hmem
  have hstr : (versionStr ⟨M, m, p, none⟩).data
      = 'v' :: (natRepr M ++ ('.' :: (natRepr m ++ ('.' :: natRepr p)))) := by
    simp [versionStr, Version.str]
  rw [hstr] at hmem
  simp only [List.mem_cons, List.mem_append] at hmem
  rcases hmem with h | h
  · exact absurd h (by decide)
  · rcases h with h | h
    · have := natRepr_digits M _ h
      simp at this
    · rcases h with h | h
      · exact absurd h (by decide)
      · rcases h with h | h
        · have := natRepr_digits m _ h
          simp at this
        · rcases h with h | h
          · exact absurd h (by decide)
          · have := natRepr_digits p _ h
            simp at this

/-- The rc tag string is the production string plus the `-rc.N` suffix. -/
theorem rc_str_decompose (M m p r : Nat) :
    (versionStr ⟨M, m, p, some r⟩).data
      = (versionStr ⟨M, m, p, none⟩).data ++ ('-' :: 'r' :: 'c' :: '.' :: natRepr r) := by
  simp [versionStr, Version.str]

/-- C10: when the production tag `vX.Y.Z` is among the merged tags,
`release_tag_exists("vX.Y.Z-rc.N")` is `False` for every N — even when
that rc tag is itself present — because `release_tags()` with default
arguments drops rc tags whose base version has a production release. -/
theorem C10_rc_tag_not_exists (tags : List String) (M m p r : Nat)
    (h : versionStr ⟨M, m, p, none⟩ ∈ tags) :
    release_tag_exists tags (versionStr ⟨M, m, p, some r⟩) = false := by
  set prodS := versionStr ⟨M, m, p, none⟩ with hprod
  set rcS := versionStr ⟨M, m, p, some r⟩ with hrc
  -- the rc suffix decomposition at character level
  have hdec : rcS.data = prodS.data ++ ['-', 'r', 'c', '.'] ++ natRepr r := by
    rw [hrc, hprod, rc_str_decompose]
    simp
  have hdash : '-' ∉ prodS.data := dash_not_mem_prod_version M m p
  -- `"-rc." in rcS` is true
  have hcontains : strContains "-rc." rcS = true := by
    unfold strContains
    rw [show ("-rc." : String).data = ['-', 'r', 'c', '.'] from rfl, hdec]
    exact containsSub_of_occurrence _ _ _
  -- `rcS.split("-rc.")[0]` is the production string
  have hsplit : strSplitFirst "-rc." rcS = prodS := by
    unfold strSplitFirst
    rw [show ("-rc." : String).data = ['-', 'r', 'c', '.'] from rfl, hdec]
    rw [show prodS.data ++ ['-', 'r', 'c', '.'] ++ natRepr r
        = prodS.data ++ ('-' :: ['r', 'c', '.']) ++ natRepr r from rfl]
    rw [splitFirstAux_occurrence _ hdash]
  -- `"-rc." in prodS` is false
  have hnorc : strContains "-rc." prodS = false := by
    unfold strContains
    rw [show ("-rc." : String).data = ['-', 'r', 'c', '.'] from rfl]
    exact containsSub_eq_false hdash
  -- the production tag passes the regex filter
  have hregex : versionRegexMatch prodS = true := by
    rw [hprod]
    unfold versionRegexMatch
    rw [parse_version_versionStr]
    rfl
  -- membership of prodS in prod_versions
  have hmem_all : prodS ∈ sortBy tagDescLe (tags.filter versionRegexMatch) := by
    rw [mem_sortBy, List.mem_filter]
    exact ⟨h, hregex⟩
  have hns : rcS ∉ (sortBy tagDescLe (tags.filter versionRegexMatch)).filter
      (fun t => !strContains "-rc." t ||
        !((sortBy tagDescLe (tags.filter versionRegexMatch)).filter
            (fun t => !strContains "-rc." t)).contains (strSplitFirst "-rc." t)) := by
    intro hmem
    have hpred := (List.mem_filter.mp hmem).2
    rw [hcontains, hsplit] at hpred
    have hprodmem : ((sortBy tagDescLe (tags.filter versionRegexMatch)).filter
        (fun t => !strContains "-rc." t)).contains prodS = true := by
      have hin : prodS ∈ (sortBy tagDescLe (tags.filter versionRegexMatch)).filter
          (fun t => !strContains "-rc." t) := by
        rw [List.mem_filter]
        exact ⟨hmem_all, by rw [hnorc]; rfl⟩
      simpa using hin
    rw [hprodmem] at hpred
    simp at hpred
  unfold release_tag_exists release_tags
  simpa using hns

/-- C10 witness: tags `["v1.2.3", "v1.2.3-rc.1"]` — the rc tag is present
but `release_tag_exists` still reports it absent. -/
theorem C10_rc_tag_not_exists_witness :
    versionStr ⟨1, 2, 3, none⟩ ∈ ["v1.2.3", "v1.2.3-rc.1"] ∧
      release_tag_exists ["v1.2.3", "v1.2.3-rc.1"] (versionStr ⟨1, 2, 3, some 1⟩)
        = false :=
  ⟨by decide, C10_rc_tag_not_exists ["v1.2.3", "v1.2.3-rc.1"] 1 2 3 1 (by decide)⟩

/-! ## Claims C1 and C4: `run_stages` resumption short-circuit and
`stage_branch` (tools/create_release.py, lines 342-343, 348-379, 931-983;
tools/lib/git.py, lines 264-275) -/

/-- `Releaser.release_commit_message`. -/
def release_commit_message (version : String) : String := "chore: Release " ++ version

/-- `Git.log(branch, count)`: the one-line messages of the most recent
`count` commits of the branch.  `history` is the branch's full history of
one-line commit messages, newest first (the sha prefix of
`git log --oneline` is already split off, as the source does). -/
def gitLog (history : List String) (count : Nat) : List String := history.take count

/-- The named stages of `Releaser.run_stages`, in source order. -/
inductive StageId where
  | init | version | rename_issue | assign_milestone | production_ready | dashboard
  | branch | gitignore | validate | release_notes | commit | push | pull_request
  | await_checks | ready_for_review
  | await_merged | await_master_build | tag | sign_tag | build_binaries
  | create_tarballs | sign_release_assets | verify_release_assets
  | format_release_notes | publish_release | close_milestone | close_issue
deriving DecidableEq

/-- The stages before the branch-and-PR decision. -/
def preStages : List StageId :=
  [.init, .version, .rename_issue, .assign_milestone, .production_ready, .dashboard]

/-- The branch-and-PR block stages. -/
def branchBlockStages : List StageId :=
  [.branch, .gitignore, .validate, .release_notes, .commit, .push, .pull_request,
   .await_checks, .ready_for_review]

/-- The stages after await-merge. -/
def postMergeStages : List StageId :=
  [.dashboard, .await_master_build, .tag, .sign_tag, .dashboard, .build_binaries,
   .create_tarballs, .sign_release_assets, .dashboard, .verify_release_assets,
   .format_release_notes, .publish_release, .dashboard, .close_milestone,
   .close_issue]

/-- The control-flow skeleton of `Releaser.run_stages` as the list of
stages executed (assuming no stage raises): the branch-and-PR block runs
iff the release commit message is not among `git.log(main_branch)`
(default count 100); a dryrun stops after preparation; a verify run stops
after await-checks; otherwise execution continues at await-merge. -/
def run_stages_trace (dryrun verify : Bool) (mainHistory : List String)
    (version : String) : List StageId :=
  preStages ++
    (if !(gitLog mainHistory 100).contains (release_commit_message version) then
      [StageId.branch, .gitignore, .validate, .release_notes, .commit, .push,
        .pull_request, .dashboard] ++
        (if !dryrun then
          StageId.await_checks ::
            (if verify then []
             else StageId.ready_for_review :: StageId.await_merged :: postMergeStages)
         else [])
     else StageId.await_merged :: postMergeStages)

/-- C1 counterexample: a main-branch history whose release commit sits at
depth 101 — the commit exists in the history, yet the branch-and-PR block
is not skipped, because the code only inspects the last 100 commit
messages (`Git.log`'s default `count=100`). -/
theorem C1_counterexample :
    release_commit_message "v1.0.0"
        ∈ (List.replicate 100 "x" ++ [release_commit_message "v1.0.0"]) ∧
      StageId.branch ∈ run_stages_trace false false
        (List.replicate 100 "x" ++ [release_commit_message "v1.0.0"]) "v1.0.0" := by
  constructor
  · simp
  · have hc : ((gitLog (List.replicate 100 "x" ++ [release_commit_message "v1.0.0"])
        100).contains (release_commit_message "v1.0.0")) = false := by
      rw [show gitLog (List.replicate 100 "x" ++ [release_commit_message "v1.0.0"]) 100
          = List.replicate 100 "x" by
        unfold gitLog
        rw [List.take_append_of_le_length (by simp), List.take_of_length_le (by simp)]]
      simp [List.contains_eq_any_beq, List.all_eq_true]
      decide
    unfold run_stages_trace
    rw [hc]
    simp [preStages]

/-- C1 (amended): the branch-and-PR block is skipped in its entirety iff a
commit whose message is exactly `chore: Release <version>` appears among
the most recent 100 commit messages of the configured main branch (the
window `Git.log` inspects); when skipped, execution resumes directly at
the await-merge stage. -/
theorem C1_branch_block_skip (dryrun verify : Bool) (hist : List String)
    (version : String) :
    ((∀ s ∈ branchBlockStages, s ∉ run_stages_trace dryrun verify hist version) ↔
        release_commit_message version ∈ gitLog hist 100) ∧
      (release_commit_message version ∈ gitLog hist 100 →
        run_stages_trace dryrun verify hist version
          = preStages ++ StageId.await_merged :: postMergeStages) := by
  by_cases hmem : release_commit_message version ∈ gitLog hist 100
  · have hc : ((gitLog hist 100).contains (release_commit_message version)) = true := by
      simpa using hmem
    have htrace : run_stages_trace dryrun verify hist version
        = preStages ++ StageId.await_merged :: postMergeStages := by
      unfold run_stages_trace
      rw [hc]
      rfl
    refine ⟨⟨fun _ => hmem, fun _ => ?_⟩, fun _ => htrace⟩
    rw [htrace]
    intro s hs
    fin_cases hs <;> decide
  · have hc : ((gitLog hist 100).contains (release_commit_message version)) = false := by
      simpa using hmem
    constructor
    · constructor
      · intro hall
        exfalso
        have hb := hall StageId.branch (by decide)
        apply hb
        unfold run_stages_trace
        rw [hc]
        cases dryrun <;> cases verify <;> simp [preStages]
      · intro h
        exact absurd h hmem
    · intro h
      exact absurd h hmem

/-- C1 witness: with the release commit at the head of a short history the
trace resumes at await-merge right after the preparation stages. -/
theorem C1_branch_block_skip_witness :
    run_stages_trace false false [release_commit_message "v1.0.0"] "v1.0.0"
      = preStages ++ StageId.await_merged :: postMergeStages :=
  (C1_branch_block_skip false false [release_commit_message "v1.0.0"] "v1.0.0").2
    (by decide)

/-- The git operations `stage_branch` can perform, in order. -/
inductive GitAction where
  | checkout (branch : String)
  | rebase (onto : String) (commits : Nat)
  | reset (onto : String)
  | create_branch (branch : String) (base : String)
deriving DecidableEq

/-- `Releaser.stage_branch` as the list of git actions it performs: if
`release/<version>` exists locally or on origin, check it out, then —
only when rebasing is configured — rebase (when the last commit message
equals the release commit message) or hard-reset onto the source branch;
otherwise create the branch fresh from the source branch. -/
def stage_branch_actions (rebaseCfg : Bool) (srcBranch version : String)
    (branches originBranches : List String) (lastMsg : String) : List GitAction :=
  let release_branch := "release/" ++ version
  if branches.contains release_branch || originBranches.contains release_branch then
    GitAction.checkout release_branch ::
      (if !rebaseCfg then []
       else if lastMsg == release_commit_message version then
         [GitAction.rebase srcBranch 1]
       else [GitAction.reset srcBranch])
  else [GitAction.create_branch release_branch srcBranch]

/-- C4 counterexample: with rebasing disabled (`--no-rebase`) and a last
commit message different from the release commit message, `stage_branch`
only checks the branch out — it does not hard-reset it, contrary to the
claim's unconditional reset. -/
theorem C4_counterexample :
    stage_branch_actions false "master" "v1.0.0" ["release/v1.0.0"] [] "other"
        = [GitAction.checkout "release/v1.0.0"] ∧
      GitAction.reset "master"
        ∉ stage_branch_actions false "master" "v1.0.0" ["release/v1.0.0"] [] "other" := by
  decide

/-- C4 (amended): when the release branch exists locally or on origin,
`stage_branch` checks it out; if the last commit message equals the
release commit message it never hard-resets (it rebases when rebasing is
configured and otherwise does nothing); if the message differs it
hard-resets onto the source branch provided rebasing is configured (the
default) — with `--no-rebase` neither rebase nor reset happens. -/
theorem C4_stage_branch (rebaseCfg : Bool) (src version : String)
    (branches originBranches : List String) (lastMsg : String)
    (hex : (branches.contains ("release/" ++ version)
        || originBranches.contains ("release/" ++ version)) = true) :
    (stage_branch_actions rebaseCfg src version branches originBranches lastMsg).head?
        = some (GitAction.checkout ("release/" ++ version)) ∧
      (lastMsg = release_commit_message version →
        GitAction.reset src
            ∉ stage_branch_actions rebaseCfg src version branches originBranches lastMsg ∧
          (rebaseCfg = true →
            stage_branch_actions rebaseCfg src version branches originBranches lastMsg
              = [GitAction.checkout ("release/" ++ version), GitAction.rebase src 1])) ∧
      (lastMsg ≠ release_commit_message version → rebaseCfg = true →
        stage_branch_actions rebaseCfg src version branches originBranches lastMsg
          = [GitAction.checkout ("release/" ++ version), GitAction.reset src]) := by
  have hunf : stage_branch_actions rebaseCfg src version branches originBranches lastMsg
      = GitAction.checkout ("release/" ++ version) ::
          (if !rebaseCfg then []
           else if lastMsg == release_commit_message version then
             [GitAction.rebase src 1]
           else [GitAction.reset src]) := by
    simp [stage_branch_actions, hex]
    intro h
    rcases (by simpa using hex :
        ("release/" ++ version) ∈ branches ∨ ("release/" ++ version) ∈ originBranches)
      with hm | hm
    · exact absurd hm h
    · exact hm
  rw [hunf]
  refine ⟨rfl, ?_, ?_⟩
  · intro heq
    subst heq
    cases rebaseCfg <;> simp
  · intro hne hr
    subst hr
    have : (lastMsg == release_commit_message version) = false := by
      simpa using hne
    simp [this]

/-- C4 witness: the three scenarios at concrete inputs — equal message
with and without rebase configured, and differing message with rebase. -/
theorem C4_stage_branch_witness :
    (stage_branch_actions true "master" "v1.0.0" ["release/v1.0.0"] []
        (release_commit_message "v1.0.0")).head?
        = some (GitAction.checkout "release/v1.0.0") ∧
      GitAction.reset "master"
        ∉ stage_branch_actions true "master" "v1.0.0" ["release/v1.0.0"] []
            (release_commit_message "v1.0.0") ∧
      stage_branch_actions true "master" "v1.0.0" ["release/v1.0.0"] [] "other"
        = [GitAction.checkout "release/v1.0.0", GitAction.reset "master"] := by
  have h := C4_stage_branch true "master" "v1.0.0" ["release/v1.0.0"] []
    (release_commit_message "v1.0.0") (by decide)
  have h2 := C4_stage_branch true "master" "v1.0.0" ["release/v1.0.0"] [] "other"
    (by decide)
  exact ⟨h.1, (h.2.1 rfl).1, h2.2.2 (by decide) rfl⟩

/-! ## Python string helpers: `splitlines`, `"\n".join`, `strip`

Python line separators are modelled as the newline character. -/

/-- Python whitespace (for `str.strip` with no arguments). -/
def isWs (c : Char) : Bool :=
  c = ' ' || c = '\t' || c = '\n' || c = '\r' || c = '\x0b' || c = '\x0c'

/-- `str.strip()`: drop leading and trailing whitespace. -/
def pyStrip (l : List Char) : List Char :=
  ((l.dropWhile isWs).reverse.dropWhile isWs).reverse

/-- `str.splitlines()`: split at newlines; a trailing newline does not
produce a final empty line, and the empty string has no lines. -/
def splitlines : List Char → List (List Char)
  | [] => []
  | c :: cs =>
    if c = '\n' then [] :: splitlines cs
    else
      match splitlines cs with
      | [] => [[c]]
      | l :: ls => (c :: l) :: ls

/-- `"\n".join(...)`. -/
def joinNL : List (List Char) → List Char
  | [] => []
  | [l] => l
  | l :: l' :: ls => l ++ '\n' :: joinNL (l' :: ls)

/-- `line in body.splitlines()` for strings. -/
def strSplitlinesContains (body line : String) : Bool :=
  ((splitlines body.data).map (fun l => (⟨l⟩ : String))).contains line

/-! ## Claim C9: `patch_markdown_section` (tools/lib/github.py, lines
1040-1079) -/

/-- `len(line) - len(line.lstrip("#"))`: the number of leading `#`. -/
def hashLevel (l : List Char) : Nat := (l.takeWhile (fun c => c = '#')).length

/-- Index of the first element satisfying `p` (the `for`/`break` scans of
`patch_markdown_section`). -/
def findIdxAux (p : List Char → Bool) : List (List Char) → Option Nat
  | [] => none
  | l :: ls => if p l then some 0 else (findIdxAux p ls).map (· + 1)

/-- A line ending the matched section: starts with `#` at a level at most
the patched header's. -/
def isTerm (hl : Nat) (ln : List Char) : Bool :=
  ['#'].isPrefixOf ln && decide (hashLevel ln ≤ hl)

/-- `patch_markdown_section`: replace the section of `body` between the
first line starting with `header` and the next header of
equal-or-higher level (or the end of the body) with
`[header, content.strip(), ""]`; prepend the new section when the header
does not occur.  The result is `"\n".join(...).strip() + "\n"`. -/
def patchMd (body header content : List Char) : List Char :=
  match findIdxAux (fun ln => header.isPrefixOf ln) (splitlines body) with
  | some i =>
    pyStrip (joinNL ((splitlines body).take i
      ++ [header, pyStrip content, []]
      ++ (splitlines body).drop
        (match findIdxAux (isTerm (hashLevel header)) ((splitlines body).drop (i + 1)) with
         | some k => i + 1 + k
         | none => (splitlines body).length))) ++ ['\n']
  | none => pyStrip (joinNL ([header, pyStrip content, []] ++ splitlines body)) ++ ['\n']

/-- `patch_markdown_section` at the `String` level. -/
def patch_markdown_section (body header content : String) : String :=
  ⟨patchMd body.data header.data content.data⟩

/-- C9 counterexample: patching a header that does not occur into a body
with leading non-header content is not idempotent — the second
application swallows the original body text before the next header (the
prepended section now extends to the end of the body), e.g.
`patch("intro", "## H", "c")` is `## H\nc\n\nintro\n` once but
`## H\nc\n` twice. -/
theorem C9_counterexample :
    patch_markdown_section (patch_markdown_section "intro" "## H" "c") "## H" "c"
        ≠ patch_markdown_section "intro" "## H" "c" ∧
      patch_markdown_section "intro" "## H" "c" = "## H\nc\n\nintro\n" ∧
      patch_markdown_section (patch_markdown_section "intro" "## H" "c") "## H" "c"
        = "## H\nc\n" := by
  refine ⟨?_, by decide, by decide⟩
  decide

theorem splitlines_cons (c : Char) (cs : List Char) :
    splitlines (c :: cs) = if c = '\n' then [] :: splitlines cs
      else match splitlines cs with
        | [] => [[c]]
        | l :: ls => (c :: l) :: ls := rfl

theorem splitlines_nl_free : ∀ (x : List Char), ∀ l ∈ splitlines x, '\n' ∉ l := by
  intro x
  induction x with
  | nil => simp [splitlines]
  | cons c cs ih =>
    by_cases hc : c = '\n'
    · subst hc
      simp only [splitlines, if_pos rfl]
      intro l hl
      rcases List.mem_cons.mp hl with rfl | hl
      · simp
      · exact ih l hl
    · simp only [splitlines, if_neg hc]
      cases hs : splitlines cs with
      | nil =>
        intro l hl
        rcases List.mem_singleton.mp hl with rfl
        simp only [List.mem_singleton]
        exact fun e => hc e.symm
      | cons m ms =>
        intro l hl
        rcases List.mem_cons.mp hl with rfl | hl
        · intro hmem
          rcases List.mem_cons.mp hmem with rfl | hmem
          · exact hc rfl
          · exact ih m (hs ▸ List.mem_cons_self _ _) hmem
        · exact ih l (hs ▸ List.mem_cons_of_mem _ hl)

theorem splitlines_ne_nil {x : List Char} (h : x ≠ []) : splitlines x ≠ [] := by
  cases x with
  | nil => exact absurd rfl h
  | cons c cs =>
    by_cases hc : c = '\n'
    · simp [splitlines, hc]
    · simp only [splitlines, if_neg hc]
      cases splitlines cs <;> simp

theorem splitlines_append_nl (a b : List Char) :
    splitlines (a ++ '\n' :: b) = splitlines (a ++ ['\n']) ++ splitlines b := by
  induction a with
  | nil => simp [splitlines]
  | cons c cs ih =>
    rw [List.cons_append, List.cons_append, splitlines_cons, splitlines_cons, ih]
    by_cases hc : c = '\n'
    · rw [if_pos hc, if_pos hc]
      rfl
    · rw [if_neg hc, if_neg hc]
      obtain ⟨m, ms, hs⟩ : ∃ m ms, splitlines (cs ++ ['\n']) = m :: ms := by
        cases h : splitlines (cs ++ ['\n']) with
        | nil => exact absurd h (splitlines_ne_nil (by simp))
        | cons m ms => exact ⟨m, ms, rfl⟩
      rw [hs]
      rfl

theorem splitlines_line_nl {l : List Char} (h : '\n' ∉ l) :
    splitlines (l ++ ['\n']) = [l] := by
  induction l with
  | nil => simp [splitlines]
  | cons c cs ih =>
    have hc : c ≠ '\n' := fun e => h (e ▸ List.mem_cons_self _ _)
    have hcs : '\n' ∉ cs := fun e => h (List.mem_cons_of_mem _ e)
    rw [List.cons_append, splitlines_cons, if_neg hc, ih hcs]

theorem splitlines_joinNL_nl : ∀ {ls : List (List Char)},
    (∀ l ∈ ls, '\n' ∉ l) → ls ≠ [] → splitlines (joinNL ls ++ ['\n']) = ls := by
  intro ls
  induction ls with
  | nil => intro _ h; exact absurd rfl h
  | cons l ls ih =>
    intro hnl _
    cases ls with
    | nil => exact splitlines_line_nl (hnl l (List.mem_cons_self _ _))
    | cons l' ls' =>
      show splitlines ((l ++ '\n' :: joinNL (l' :: ls')) ++ ['\n']) = _
      rw [List.append_assoc, List.cons_append, splitlines_append_nl,
        splitlines_line_nl (hnl l (List.mem_cons_self _ _)),
        ih (fun m hm => hnl m (List.mem_cons_of_mem _ hm)) (by simp)]
      rfl

theorem joinNL_cons_cons (c : Char) (l : List Char) (ls : List (List Char)) :
    joinNL ((c :: l) :: ls) = c :: joinNL (l :: ls) := by
  cases ls <;> rfl

theorem joinNL_append : ∀ {ls ms : List (List Char)}, ls ≠ [] → ms ≠ [] →
    joinNL (ls ++ ms) = joinNL ls ++ '\n' :: joinNL ms := by
  intro ls
  induction ls with
  | nil => intro ms h; exact absurd rfl h
  | cons l ls ih =>
    intro ms _ hms
    cases ls with
    | nil =>
      cases ms with
      | nil => exact absurd rfl hms
      | cons m ms' => rfl
    | cons l' ls' =>
      show joinNL (l :: ((l' :: ls') ++ ms)) = _
      rw [show joinNL (l :: ((l' :: ls') ++ ms)) = l ++ '\n' :: joinNL ((l' :: ls') ++ ms)
          from rfl]
      rw [ih (by simp) hms,
        show joinNL (l :: l' :: ls') = l ++ '\n' :: joinNL (l' :: ls') from rfl]
      simp

theorem body_join_split (x : List Char) :
    x = joinNL (splitlines x) ∨ x = joinNL (splitlines x) ++ ['\n'] := by
  induction x with
  | nil => left; rfl
  | cons c cs ih =>
    rw [splitlines_cons]
    by_cases hc : c = '\n'
    · rw [if_pos hc]
      subst hc
      cases hs : splitlines cs with
      | nil =>
        have hcs : cs = [] := by
          by_contra hne
          exact splitlines_ne_nil hne hs
        subst hcs
        right; rfl
      | cons m ms =>
        rw [hs] at ih
        rcases ih with h | h
        · left
          rw [show joinNL ([] :: m :: ms) = '\n' :: joinNL (m :: ms) from rfl, ← h]
        · right
          rw [show joinNL ([] :: m :: ms) = '\n' :: joinNL (m :: ms) from rfl]
          rw [show ('\n' :: joinNL (m :: ms)) ++ ['\n'] = '\n' :: (joinNL (m :: ms) ++ ['\n'])
            from rfl, ← h]
    · rw [if_neg hc]
      cases hs : splitlines cs with
      | nil =>
        have hcs : cs = [] := by
          by_contra hne
          exact splitlines_ne_nil hne hs
        subst hcs
        left; rfl
      | cons m ms =>
        rw [hs] at ih
        show c :: cs = joinNL ((c :: m) :: ms) ∨ c :: cs = joinNL ((c :: m) :: ms) ++ ['\n']
        rw [joinNL_cons_cons]
        rcases ih with h | h
        · left; rw [← h]
        · right
          rw [show (c :: joinNL (m :: ms)) ++ ['\n'] = c :: (joinNL (m :: ms) ++ ['\n'])
            from rfl, ← h]

/-- `str.rstrip()`: drop trailing whitespace. -/
def rstrip (l : List Char) : List Char := (l.reverse.dropWhile isWs).reverse

theorem pyStrip_eq (l : List Char) : pyStrip l = rstrip (l.dropWhile isWs) := rfl

theorem dropWhile_eq_self {p : Char → Bool} {x : List Char}
    (h : ∀ c, x.head? = some c → p c = false) : x.dropWhile p = x := by
  cases x with
  | nil => rfl
  | cons c cs =>
    rw [List.dropWhile_cons, h c rfl]
    simp

theorem dropWhile_append_all {p : Char → Bool} {a : List Char} (b : List Char)
    (h : ∀ c ∈ a, p c = true) : (a ++ b).dropWhile p = b.dropWhile p := by
  induction a with
  | nil => rfl
  | cons c cs ih =>
    rw [List.cons_append, List.dropWhile_cons, h c (List.mem_cons_self _ _)]
    simp only [if_pos rfl]
    exact ih (fun d hd => h d (List.mem_cons_of_mem _ hd))

theorem head?_append_left {x : List Char} (y : List Char) (hx : x ≠ []) :
    (x ++ y).head? = x.head? := by
  cases x with
  | nil => exact absurd rfl hx
  | cons c cs => rfl

theorem head?_dropWhile_not {p : Char → Bool} : ∀ {x : List Char} {c : Char},
    (x.dropWhile p).head? = some c → p c = false := by
  intro x
  induction x with
  | nil => intro c hc; simp [List.dropWhile] at hc
  | cons d ds ih =>
    intro c hc
    rw [List.dropWhile_cons] at hc
    by_cases hd : p d = true
    · rw [if_pos hd] at hc
      exact ih hc
    · rw [if_neg hd] at hc
      have : d = c := by simpa using hc
      subst this
      simpa using hd

theorem rstrip_append_ws {y : List Char} (x : List Char) (h : ∀ c ∈ y, isWs c = true) :
    rstrip (x ++ y) = rstrip x := by
  unfold rstrip
  rw [List.reverse_append,
    dropWhile_append_all _ (fun c hc => h c (List.mem_reverse.mp hc))]

theorem rstrip_eq_self {x : List Char}
    (h : ∀ c, x.getLast? = some c → isWs c = false) : rstrip x = x := by
  unfold rstrip
  rw [dropWhile_eq_self (fun c hc => h c (by rwa [List.head?_reverse] at hc))]
  exact List.reverse_reverse x

theorem pyStrip_eq_self {x : List Char}
    (hh : ∀ c, x.head? = some c → isWs c = false)
    (hl : ∀ c, x.getLast? = some c → isWs c = false) : pyStrip x = x := by
  rw [pyStrip_eq, dropWhile_eq_self hh, rstrip_eq_self hl]

theorem pyStrip_append_ws {x y : List Char} (hx : x ≠ [])
    (hh : ∀ c, x.head? = some c → isWs c = false)
    (hy : ∀ c ∈ y, isWs c = true) : pyStrip (x ++ y) = pyStrip x := by
  rw [pyStrip_eq, pyStrip_eq,
    dropWhile_eq_self (fun c hc => hh c (by rwa [head?_append_left y hx] at hc)),
    dropWhile_eq_self hh, rstrip_append_ws x hy]

theorem rstrip_decomp (z : List Char) :
    ∃ w, z = rstrip z ++ w ∧ ∀ c ∈ w, isWs c = true := by
  refine ⟨(z.reverse.takeWhile isWs).reverse, ?_, ?_⟩
  · unfold rstrip
    conv_lhs => rw [← List.reverse_reverse z]
    rw [← List.reverse_append]
    congr 1
    exact (List.takeWhile_append_dropWhile (p := isWs) (l := z.reverse)).symm
  · intro c hc
    rw [List.mem_reverse] at hc
    exact List.mem_takeWhile_imp hc

theorem pyStrip_head_not_ws {x : List Char} {c : Char}
    (h : (pyStrip x).head? = some c) : isWs c = false := by
  rw [pyStrip_eq] at h
  obtain ⟨w, hw, -⟩ := rstrip_decomp (x.dropWhile isWs)
  have hne : rstrip (x.dropWhile isWs) ≠ [] := by
    intro he
    rw [he] at h
    simp at h
  have : (x.dropWhile isWs).head? = some c := by
    rw [hw, head?_append_left w hne]
    exact h
  exact head?_dropWhile_not this

theorem pyStrip_getLast_not_ws {x : List Char} {c : Char}
    (h : (pyStrip x).getLast? = some c) : isWs c = false := by
  rw [pyStrip_eq] at h
  unfold rstrip at h
  rw [List.getLast?_reverse] at h
  exact head?_dropWhile_not h

theorem getLast?_append_right (x : List Char) {y : List Char} (hy : y ≠ []) :
    (x ++ y).getLast? = y.getLast? := List.getLast?_append_of_ne_nil x hy

theorem joinNL_head? {l₀ : List Char} (ls : List (List Char)) (h : l₀ ≠ []) :
    (joinNL (l₀ :: ls)).head? = l₀.head? := by
  cases ls with
  | nil => rfl
  | cons l' ls' =>
    show (l₀ ++ '\n' :: joinNL (l' :: ls')).head? = _
    exact head?_append_left _ h

theorem joinNL_getLast? {lk : List Char} (ls : List (List Char)) (hk : lk ≠ []) :
    (joinNL (ls ++ [lk])).getLast? = lk.getLast? := by
  cases ls with
  | nil => rfl
  | cons l ls' =>
    rw [joinNL_append (by simp) (by simp)]
    rw [getLast?_append_right _ (by simp)]
    cases lk with
    | nil => exact absurd rfl hk
    | cons a as => exact List.getLast?_cons_cons

theorem findIdxAux_cons (p : List Char → Bool) (l : List Char) (ls : List (List Char)) :
    findIdxAux p (l :: ls)
      = if p l then some 0 else (findIdxAux p ls).map (· + 1) := rfl

theorem findIdxAux_mk {p : List Char → Bool} : ∀ {a : List (List Char)} {x : List Char}
    (b : List (List Char)), (∀ l ∈ a, p l = false) → p x = true →
    findIdxAux p (a ++ x :: b) = some a.length := by
  intro a
  induction a with
  | nil =>
    intro x b _ hx
    simp [findIdxAux, hx]
  | cons l ls ih =>
    intro x b ha hx
    rw [List.cons_append, findIdxAux_cons, ha l (List.mem_cons_self _ _)]
    simp [ih b (fun m hm => ha m (List.mem_cons_of_mem _ hm)) hx]

theorem findIdxAux_none {p : List Char → Bool} : ∀ {ls : List (List Char)},
    (∀ l ∈ ls, p l = false) → findIdxAux p ls = none := by
  intro ls
  induction ls with
  | nil => intro _; rfl
  | cons l ls ih =>
    intro h
    rw [findIdxAux_cons, h l (List.mem_cons_self _ _)]
    simp [ih (fun m hm => h m (List.mem_cons_of_mem _ hm))]

theorem findIdxAux_take {p : List Char → Bool} : ∀ {ls : List (List Char)} {i : Nat},
    findIdxAux p ls = some i → ∀ l ∈ ls.take i, p l = false := by
  intro ls
  induction ls with
  | nil => intro i h; simp [findIdxAux] at h
  | cons l ls ih =>
    intro i h
    rw [findIdxAux_cons] at h
    by_cases hl : p l = true
    · rw [if_pos hl] at h
      have : i = 0 := by simpa using h.symm
      subst this
      simp
    · rw [if_neg hl] at h
      cases hf : findIdxAux p ls with
      | none => rw [hf] at h; simp at h
      | some j =>
        rw [hf] at h
        have : j + 1 = i := by simpa using h
        subst this
        intro m hm
        rcases List.mem_cons.mp (by simpa using hm) with rfl | hm'
        · simpa using hl
        · exact ih hf m hm'

theorem findIdxAux_drop {p : List Char → Bool} : ∀ {ls : List (List Char)} {i : Nat},
    findIdxAux p ls = some i → ∃ y rest, ls.drop i = y :: rest ∧ p y = true := by
  intro ls
  induction ls with
  | nil => intro i h; simp [findIdxAux] at h
  | cons l ls ih =>
    intro i h
    rw [findIdxAux_cons] at h
    by_cases hl : p l = true
    · rw [if_pos hl] at h
      have : i = 0 := by simpa using h.symm
      subst this
      exact ⟨l, ls, rfl, hl⟩
    · rw [if_neg hl] at h
      cases hf : findIdxAux p ls with
      | none => rw [hf] at h; simp at h
      | some j =>
        rw [hf] at h
        have : j + 1 = i := by simpa using h
        subst this
        simpa using ih hf

theorem joinNL_flatten {c' : List Char} {cl : List (List Char)}
    (a b : List (List Char)) (hc : c' = joinNL cl) (hcl : cl ≠ []) :
    joinNL (a ++ c' :: b) = joinNL (a ++ cl ++ b) := by
  by_cases ha : a = []
  · subst ha
    by_cases hb : b = []
    · subst hb
      simp only [List.nil_append, List.append_nil]
      rw [hc]
      rfl
    · simp only [List.nil_append]
      cases b with
      | nil => exact absurd rfl hb
      | cons m ms =>
        rw [show joinNL (c' :: m :: ms) = c' ++ '\n' :: joinNL (m :: ms) from rfl,
          joinNL_append hcl (by simp), hc]
  · by_cases hb : b = []
    · subst hb
      rw [List.append_nil, joinNL_append ha (by simp : ([c'] : List (List Char)) ≠ []),
        joinNL_append ha hcl, hc]
      rfl
    · cases b with
      | nil => exact absurd rfl hb
      | cons m ms =>
        have hclb : cl ++ m :: ms ≠ [] := by simp
        have h1 : joinNL (a ++ c' :: m :: ms)
            = joinNL a ++ '\n' :: (joinNL cl ++ '\n' :: joinNL (m :: ms)) := by
          rw [joinNL_append ha (by simp),
            show joinNL (c' :: m :: ms) = c' ++ '\n' :: joinNL (m :: ms) from rfl, hc]
        have h2 : joinNL (a ++ cl ++ m :: ms)
            = joinNL a ++ '\n' :: (joinNL cl ++ '\n' :: joinNL (m :: ms)) := by
          rw [List.append_assoc, joinNL_append ha hclb, joinNL_append hcl (by simp)]
        rw [h1, h2]

theorem stripped_eq_joinNL {x : List Char} (hx : pyStrip x = x) :
    x = joinNL (splitlines x) := by
  rcases body_join_split x with h | h
  · exact h
  · exfalso
    have hlast : x.getLast? = some '\n' := by
      conv_lhs => rw [h]
      rw [getLast?_append_right _ (by simp)]
      rfl
    have hws := pyStrip_getLast_not_ws (x := x) (by rw [hx]; exact hlast)
    simp [isWs] at hws

theorem stripped_head_line {x : List Char} (hx : pyStrip x = x) (hne : x ≠ []) :
    ∃ l₀ ls, splitlines x = l₀ :: ls ∧ l₀ ≠ []
      ∧ (∀ c, l₀.head? = some c → isWs c = false) := by
  cases x with
  | nil => exact absurd rfl hne
  | cons c cs =>
    have hc : isWs c = false :=
      pyStrip_head_not_ws (x := c :: cs) (by rw [hx]; rfl)
    have hcnl : c ≠ '\n' := by
      intro h
      rw [h] at hc
      simp [isWs] at hc
    rw [splitlines_cons, if_neg hcnl]
    cases splitlines cs with
    | nil => exact ⟨[c], [], rfl, by simp, fun d hd => by
        rw [show d = c from by simpa using hd.symm]; exact hc⟩
    | cons m ms => exact ⟨c :: m, ms, rfl, by simp, fun d hd => by
        rw [show d = c from by simpa using hd.symm]; exact hc⟩

theorem stripped_last_line {x : List Char} (hx : pyStrip x = x) (hne : x ≠ []) :
    ∃ ls lk, splitlines x = ls ++ [lk] ∧ lk ≠ []
      ∧ (∀ c, lk.getLast? = some c → isWs c = false) := by
  have hlines : splitlines x ≠ [] := splitlines_ne_nil hne
  have hj : x = joinNL (splitlines x) := stripped_eq_joinNL hx
  obtain ⟨ls, lk, hsplit⟩ : ∃ ls lk, splitlines x = ls ++ [lk] := by
    refine ⟨(splitlines x).dropLast, (splitlines x).getLast hlines, ?_⟩
    exact (List.dropLast_append_getLast hlines).symm
  have hlast_ws : ∀ c, x.getLast? = some c → isWs c = false := by
    intro c hc
    exact pyStrip_getLast_not_ws (by rw [hx]; exact hc)
  have hlk : lk ≠ [] := by
    intro he
    subst he
    by_cases hls : ls = []
    · subst hls
      rw [hsplit] at hj
      exact hne (by simpa using hj)
    · rw [hsplit, joinNL_append hls (by simp)] at hj
      have : x.getLast? = some '\n' := by
        conv_lhs => rw [hj]
        rw [getLast?_append_right _ (by simp)]
        rfl
      have := hlast_ws _ this
      simp [isWs] at this
  refine ⟨ls, lk, hsplit, hlk, ?_⟩
  intro c hc
  apply hlast_ws
  conv_lhs => rw [hj, hsplit]
  rw [joinNL_getLast? ls hlk]
  exact hc

theorem hash_head {h : List Char} (Hh : ['#'].isPrefixOf h = true) :
    ∃ t, h = '#' :: t := by
  cases h with
  | nil => simp [List.isPrefixOf] at Hh
  | cons c t =>
    have : '#' = c := by simpa [List.isPrefixOf] using Hh
    exact ⟨t, by rw [← this]⟩

theorem isPrefixOf_rfl (h : List Char) : h.isPrefixOf h = true := by
  have := isPrefixOf_self_append h []
  rwa [List.append_nil] at this

theorem pyStrip_idem (x : List Char) : pyStrip (pyStrip x) = pyStrip x :=
  pyStrip_eq_self (fun _ hc => pyStrip_head_not_ws hc)
    (fun _ hc => pyStrip_getLast_not_ws hc)

theorem pyStrip_joinNL_eq_self {L : List (List Char)} {l₀ lk : List Char}
    {a b : List (List Char)}
    (hL1 : L = l₀ :: a) (hL2 : L = b ++ [lk])
    (hl₀ : l₀ ≠ []) (hlk : lk ≠ [])
    (hh : ∀ ch, l₀.head? = some ch → isWs ch = false)
    (hl : ∀ ch, lk.getLast? = some ch → isWs ch = false) :
    pyStrip (joinNL L) = joinNL L := by
  apply pyStrip_eq_self
  · intro ch hch
    rw [hL1, joinNL_head? a hl₀] at hch
    exact hh ch hch
  · intro ch hch
    rw [hL2, joinNL_getLast? b hlk] at hch
    exact hl ch hch

/-- The prepend branch of `patch_markdown_section`: when the header occurs
on no line of the (stripped, nonempty) body, the new section is prepended
verbatim before the untouched body. -/
theorem patchMd_prepend {body h c : List Char}
    (Hh : ['#'].isPrefixOf h = true)
    (Hb : pyStrip body = body) (Hbne : body ≠ [])
    (hnf : findIdxAux (fun ln => h.isPrefixOf ln) (splitlines body) = none) :
    patchMd body h c = h ++ '\n' :: pyStrip c ++ '\n' :: '\n' :: body ++ ['\n'] := by
  obtain ⟨t, rfl⟩ := hash_head Hh
  obtain ⟨ls, lk, hsplit, hlk, hlkws⟩ := stripped_last_line Hb Hbne
  have hlines_ne : splitlines body ≠ [] := splitlines_ne_nil Hbne
  have hjoin : joinNL (splitlines body) = body := (stripped_eq_joinNL Hb).symm
  unfold patchMd
  rw [hnf]
  have hM : joinNL (('#' :: t) :: pyStrip c :: [] :: splitlines body)
      = ('#' :: t) ++ '\n' :: pyStrip c ++ '\n' :: '\n' :: body := by
    rw [show joinNL (('#' :: t) :: pyStrip c :: [] :: splitlines body)
        = ('#' :: t) ++ '\n' :: joinNL (pyStrip c :: [] :: splitlines body) from rfl]
    rw [show joinNL (pyStrip c :: [] :: splitlines body)
        = pyStrip c ++ '\n' :: joinNL ([] :: splitlines body) from rfl]
    cases hsl : splitlines body with
    | nil => exact absurd hsl hlines_ne
    | cons m ms =>
      rw [show joinNL ([] :: m :: ms) = '\n' :: joinNL (m :: ms) from rfl]
      rw [← hsl, hjoin]
      simp
  have hstrip : pyStrip (('#' :: t) ++ '\n' :: pyStrip c ++ '\n' :: '\n' :: body)
      = ('#' :: t) ++ '\n' :: pyStrip c ++ '\n' :: '\n' :: body := by
    apply pyStrip_eq_self
    · intro ch hch
      have : ch = '#' := by simpa using hch.symm
      subst this
      decide
    · intro ch hch
      have hch' : body.getLast? = some ch := by
        rw [show ('#' :: t) ++ '\n' :: pyStrip c ++ '\n' :: '\n' :: body
            = (('#' :: t) ++ '\n' :: pyStrip c ++ ['\n', '\n']) ++ body by simp] at hch
        rwa [getLast?_append_right _ Hbne] at hch
      exact pyStrip_getLast_not_ws (by rw [Hb]; exact hch')
  show pyStrip (joinNL (('#' :: t) :: pyStrip c :: [] :: splitlines body)) ++ ['\n'] = _
  rw [hM, hstrip]

/-- The connective facts needed about the head of the replaced-section
join: its first line is either the body's (nonempty, non-whitespace-headed)
first line or the header itself. -/
theorem section_head_cond {body h : List Char} (T : List (List Char))
    (Hh : ['#'].isPrefixOf h = true)
    (Hb : pyStrip body = body) (Hbne : body ≠ []) (i : Nat) :
    ∀ ch, (joinNL ((splitlines body).take i ++ (h :: T))).head? = some ch →
      isWs ch = false := by
  obtain ⟨t, rfl⟩ := hash_head Hh
  obtain ⟨l₀, ls0, hsplit, hl₀, hl₀ws⟩ := stripped_head_line Hb Hbne
  intro ch hch
  cases i with
  | zero =>
    rw [List.take_zero, List.nil_append, joinNL_head? T (by simp)] at hch
    have : ch = '#' := by simpa using hch.symm
    subst this
    decide
  | succ j =>
    rw [hsplit] at hch
    rw [show (l₀ :: ls0).take (j + 1) ++ (('#' :: t) :: T)
        = l₀ :: (ls0.take j ++ (('#' :: t) :: T)) by simp] at hch
    rw [joinNL_head? _ hl₀] at hch
    exact hl₀ws ch hch

theorem joinNL_ne_nil {L : List (List Char)} {x : List Char}
    (hmem : x ∈ L) (hx : x ≠ []) : joinNL L ≠ [] := by
  induction L with
  | nil => simp at hmem
  | cons l ls ih =>
    cases ls with
    | nil =>
      rcases List.mem_singleton.mp hmem with rfl
      simpa using hx
    | cons m ms =>
      show l ++ '\n' :: joinNL (m :: ms) ≠ []
      simp

/-- The matched-header branch when no following header of equal-or-higher
level exists: the replacement extends to the end of the body. -/
theorem patchMd_found_last {body h c : List Char} {i : Nat}
    (Hh : ['#'].isPrefixOf h = true)
    (Hb : pyStrip body = body) (Hbne : body ≠ [])
    (Hcne : pyStrip c ≠ [])
    (hfound : findIdxAux (fun ln => h.isPrefixOf ln) (splitlines body) = some i)
    (hterm : findIdxAux (isTerm (hashLevel h)) ((splitlines body).drop (i + 1)) = none) :
    patchMd body h c = joinNL ((splitlines body).take i ++ [h, pyStrip c]) ++ ['\n'] := by
  unfold patchMd
  rw [hfound]
  show pyStrip (joinNL ((splitlines body).take i ++ [h, pyStrip c, []]
      ++ (splitlines body).drop
        (match findIdxAux (isTerm (hashLevel h)) ((splitlines body).drop (i + 1)) with
         | some k => i + 1 + k
         | none => (splitlines body).length))) ++ ['\n'] = _
  rw [hterm]
  show pyStrip (joinNL ((splitlines body).take i ++ [h, pyStrip c, []]
      ++ (splitlines body).drop (splitlines body).length)) ++ ['\n'] = _
  rw [List.drop_length, List.append_nil]
  rw [show (splitlines body).take i ++ [h, pyStrip c, []]
      = ((splitlines body).take i ++ [h, pyStrip c]) ++ [[]] by simp]
  rw [joinNL_append (by simp) (by simp)]
  have hXne : joinNL ((splitlines body).take i ++ [h, pyStrip c]) ≠ [] :=
    joinNL_ne_nil (x := h) (by simp) (by obtain ⟨t, rfl⟩ := hash_head Hh; simp)
  have hhead : ∀ ch, (joinNL ((splitlines body).take i ++ [h, pyStrip c])).head?
      = some ch → isWs ch = false := by
    intro ch hch
    rw [show (splitlines body).take i ++ [h, pyStrip c]
        = (splitlines body).take i ++ (h :: [pyStrip c]) from rfl] at hch
    exact section_head_cond _ Hh Hb Hbne i ch hch
  have hlast : ∀ ch, (joinNL ((splitlines body).take i ++ [h, pyStrip c])).getLast?
      = some ch → isWs ch = false := by
    intro ch hch
    rw [show (splitlines body).take i ++ [h, pyStrip c]
        = ((splitlines body).take i ++ [h]) ++ [pyStrip c] by simp] at hch
    rw [joinNL_getLast? _ Hcne] at hch
    exact pyStrip_getLast_not_ws hch
  rw [show joinNL ((splitlines body).take i ++ [h, pyStrip c]) ++ '\n' :: joinNL [[]]
      = joinNL ((splitlines body).take i ++ [h, pyStrip c]) ++ ['\n'] from rfl]
  rw [pyStrip_append_ws hXne hhead (by intro d hd; rw [List.mem_singleton.mp hd]; decide)]
  rw [pyStrip_eq_self hhead hlast]

/-- The matched-header branch with a following header of equal-or-higher
level at offset `k`: the section up to (excluding) that header is
replaced, and the global strip is the identity. -/
theorem patchMd_found_mid {body h c : List Char} {i k : Nat}
    (Hh : ['#'].isPrefixOf h = true)
    (Hb : pyStrip body = body) (Hbne : body ≠ [])
    (hfound : findIdxAux (fun ln => h.isPrefixOf ln) (splitlines body) = some i)
    (hterm : findIdxAux (isTerm (hashLevel h)) ((splitlines body).drop (i + 1)) = some k) :
    patchMd body h c
      = joinNL ((splitlines body).take i ++ [h, pyStrip c, []]
          ++ (splitlines body).drop (i + 1 + k)) ++ ['\n'] := by
  unfold patchMd
  rw [hfound]
  show pyStrip (joinNL ((splitlines body).take i ++ [h, pyStrip c, []]
      ++ (splitlines body).drop
        (match findIdxAux (isTerm (hashLevel h)) ((splitlines body).drop (i + 1)) with
         | some k => i + 1 + k
         | none => (splitlines body).length))) ++ ['\n'] = _
  rw [hterm]
  show pyStrip (joinNL ((splitlines body).take i ++ [h, pyStrip c, []]
      ++ (splitlines body).drop (i + 1 + k))) ++ ['\n'] = _
  congr 2
  obtain ⟨y, rest, hpost, hy⟩ := findIdxAux_drop hterm
  rw [List.drop_drop] at hpost
  have hpost' : (splitlines body).drop (i + 1 + k) = y :: rest := by
    rw [show i + 1 + k = i + 1 + k from rfl, show i + 1 + k = (i + 1) + k by omega]
    exact hpost
  have hplen : i + 1 + k < (splitlines body).length := by
    by_contra hle
    rw [List.drop_eq_nil_of_le (by omega)] at hpost'
    simp at hpost'
  obtain ⟨ls, lk, hsplit, hlk, hlkws⟩ := stripped_last_line Hb Hbne
  have hlen : (splitlines body).length = ls.length + 1 := by
    rw [hsplit]
    simp
  have hdropsplit : (splitlines body).drop (i + 1 + k) = ls.drop (i + 1 + k) ++ [lk] := by
    conv_lhs => rw [hsplit]
    exact List.drop_append_of_le_length (by omega)
  apply pyStrip_eq_self
  · intro ch hch
    rw [show (splitlines body).take i ++ [h, pyStrip c, []]
          ++ (splitlines body).drop (i + 1 + k)
        = (splitlines body).take i
          ++ (h :: (pyStrip c :: [] :: (splitlines body).drop (i + 1 + k))) by simp] at hch
    exact section_head_cond _ Hh Hb Hbne i ch hch
  · intro ch hch
    rw [hdropsplit] at hch
    rw [show (splitlines body).take i ++ [h, pyStrip c, []]
          ++ (ls.drop (i + 1 + k) ++ [lk])
        = ((splitlines body).take i ++ [h, pyStrip c, []] ++ ls.drop (i + 1 + k))
          ++ [lk] by simp] at hch
    rw [joinNL_getLast? _ hlk] at hch
    exact hlkws ch hch

/-- Stripping the joined replacement is a no-op when the replaced section
is followed by a remainder of the body (its last line is the body's). -/
theorem strip_section_mid {body h c : List Char} (i e : Nat)
    (Hh : ['#'].isPrefixOf h = true)
    (Hb : pyStrip body = body) (Hbne : body ≠ [])
    (hlt : e < (splitlines body).length) :
    pyStrip (joinNL ((splitlines body).take i ++ [h, pyStrip c, []]
        ++ (splitlines body).drop e))
      = joinNL ((splitlines body).take i ++ [h, pyStrip c, []]
        ++ (splitlines body).drop e) := by
  obtain ⟨ls, lk, hsplit, hlk, hlkws⟩ := stripped_last_line Hb Hbne
  have hlen : (splitlines body).length = ls.length + 1 := by
    rw [hsplit]
    simp
  have hdropsplit : (splitlines body).drop e = ls.drop e ++ [lk] := by
    conv_lhs => rw [hsplit]
    exact List.drop_append_of_le_length (by omega)
  apply pyStrip_eq_self
  · intro ch hch
    rw [show (splitlines body).take i ++ [h, pyStrip c, []] ++ (splitlines body).drop e
        = (splitlines body).take i
          ++ (h :: (pyStrip c :: [] :: (splitlines body).drop e)) by simp] at hch
    exact section_head_cond _ Hh Hb Hbne i ch hch
  · intro ch hch
    rw [hdropsplit] at hch
    rw [show (splitlines body).take i ++ [h, pyStrip c, []] ++ (ls.drop e ++ [lk])
        = ((splitlines body).take i ++ [h, pyStrip c, []] ++ ls.drop e) ++ [lk]
        by simp] at hch
    rw [joinNL_getLast? _ hlk] at hch
    exact hlkws ch hch

/-- Stripping the joined replacement when it reaches the end of the body:
the trailing empty section line and its newline are removed. -/
theorem strip_section_end {body h c : List Char} (i : Nat)
    (Hh : ['#'].isPrefixOf h = true)
    (Hb : pyStrip body = body) (Hbne : body ≠ [])
    (Hcne : pyStrip c ≠ []) :
    pyStrip (joinNL ((splitlines body).take i ++ [h, pyStrip c, []]))
      = joinNL ((splitlines body).take i ++ [h, pyStrip c]) := by
  rw [show (splitlines body).take i ++ [h, pyStrip c, []]
      = ((splitlines body).take i ++ [h, pyStrip c]) ++ [[]] by simp]
  rw [joinNL_append (by simp) (by simp)]
  have hXne : joinNL ((splitlines body).take i ++ [h, pyStrip c]) ≠ [] :=
    joinNL_ne_nil (x := h) (by simp) (by obtain ⟨t, rfl⟩ := hash_head Hh; simp)
  have hhead : ∀ ch, (joinNL ((splitlines body).take i ++ [h, pyStrip c])).head?
      = some ch → isWs ch = false := by
    intro ch hch
    rw [show (splitlines body).take i ++ [h, pyStrip c]
        = (splitlines body).take i ++ (h :: [pyStrip c]) from rfl] at hch
    exact section_head_cond _ Hh Hb Hbne i ch hch
  have hlast : ∀ ch, (joinNL ((splitlines body).take i ++ [h, pyStrip c])).getLast?
      = some ch → isWs ch = false := by
    intro ch hch
    rw [show (splitlines body).take i ++ [h, pyStrip c]
        = ((splitlines body).take i ++ [h]) ++ [pyStrip c] by simp] at hch
    rw [joinNL_getLast? _ Hcne] at hch
    exact pyStrip_getLast_not_ws hch
  rw [show joinNL ((splitlines body).take i ++ [h, pyStrip c]) ++ '\n' :: joinNL [[]]
      = joinNL ((splitlines body).take i ++ [h, pyStrip c]) ++ ['\n'] from rfl]
  rw [pyStrip_append_ws hXne hhead (by intro d hd; rw [List.mem_singleton.mp hd]; decide)]
  exact pyStrip_eq_self hhead hlast

/-- The line structure of a first-run result whose section is followed by
a body remainder. -/
theorem splitlines_section_mid {body h c : List Char} (i e : Nat)
    (Hhnl : '\n' ∉ h) (Hcne : pyStrip c ≠ []) :
    splitlines (joinNL ((splitlines body).take i ++ [h, pyStrip c, []]
        ++ (splitlines body).drop e) ++ ['\n'])
      = ((splitlines body).take i ++ [h]) ++ splitlines (pyStrip c)
        ++ ([] :: (splitlines body).drop e) := by
  have hc'join : pyStrip c = joinNL (splitlines (pyStrip c)) :=
    stripped_eq_joinNL (pyStrip_idem c)
  have hflat : joinNL ((splitlines body).take i ++ [h, pyStrip c, []]
        ++ (splitlines body).drop e)
      = joinNL (((splitlines body).take i ++ [h]) ++ splitlines (pyStrip c)
          ++ ([] :: (splitlines body).drop e)) := by
    rw [show (splitlines body).take i ++ [h, pyStrip c, []] ++ (splitlines body).drop e
        = ((splitlines body).take i ++ [h])
          ++ pyStrip c :: ([] :: (splitlines body).drop e) by simp]
    exact joinNL_flatten _ _ hc'join (splitlines_ne_nil Hcne)
  rw [hflat]
  apply splitlines_joinNL_nl
  · intro l hl
    simp only [List.mem_append, List.mem_cons, List.mem_singleton] at hl
    rcases hl with ((hl | hl) | hl) | (hl | hl)
    · exact splitlines_nl_free body l (List.take_subset _ _ hl)
    · rcases hl with rfl | hfalse
      · exact Hhnl
      · simp at hfalse
    · exact splitlines_nl_free (pyStrip c) l hl
    · subst hl; simp
    · exact splitlines_nl_free body l (List.drop_subset _ _ hl)
  · simp

/-- The line structure of a first-run result whose section reaches the
end of the body. -/
theorem splitlines_section_end {body h c : List Char} (i : Nat)
    (Hhnl : '\n' ∉ h) (Hcne : pyStrip c ≠ []) :
    splitlines (joinNL ((splitlines body).take i ++ [h, pyStrip c]) ++ ['\n'])
      = ((splitlines body).take i ++ [h]) ++ splitlines (pyStrip c) := by
  have hc'join : pyStrip c = joinNL (splitlines (pyStrip c)) :=
    stripped_eq_joinNL (pyStrip_idem c)
  have hflat : joinNL ((splitlines body).take i ++ [h, pyStrip c])
      = joinNL (((splitlines body).take i ++ [h]) ++ splitlines (pyStrip c)) := by
    rw [show (splitlines body).take i ++ [h, pyStrip c]
        = ((splitlines body).take i ++ [h]) ++ pyStrip c :: [] by simp]
    have hfl := joinNL_flatten ((splitlines body).take i ++ [h]) []
      hc'join (splitlines_ne_nil Hcne)
    rw [hfl, List.append_nil]
  rw [hflat]
  apply splitlines_joinNL_nl
  · intro l hl
    simp only [List.mem_append, List.mem_cons, List.mem_singleton] at hl
    rcases hl with (hl | hl) | hl
    · exact splitlines_nl_free body l (List.take_subset _ _ hl)
    · rcases hl with rfl | hfalse
      · exact Hhnl
      · simp at hfalse
    · exact splitlines_nl_free (pyStrip c) l hl
  · simp

/-- Re-patching a first-run result whose section is followed by a body
remainder reproduces it exactly. -/
theorem patchMd_run2_mid {body h c : List Char} {i k : Nat}
    (Hh : ['#'].isPrefixOf h = true) (Hhnl : '\n' ∉ h)
    (Hb : pyStrip body = body) (Hbne : body ≠ [])
    (Hcne : pyStrip c ≠ [])
    (Hcl : ∀ l ∈ splitlines (pyStrip c), isTerm (hashLevel h) l = false)
    (hfound : findIdxAux (fun ln => h.isPrefixOf ln) (splitlines body) = some i)
    (hterm : findIdxAux (isTerm (hashLevel h)) ((splitlines body).drop (i + 1)) = some k) :
    patchMd (joinNL ((splitlines body).take i ++ [h, pyStrip c, []]
        ++ (splitlines body).drop (i + 1 + k)) ++ ['\n']) h c
      = joinNL ((splitlines body).take i ++ [h, pyStrip c, []]
          ++ (splitlines body).drop (i + 1 + k)) ++ ['\n'] := by
  obtain ⟨y, rest, hpost1, hy⟩ := findIdxAux_drop hterm
  rw [List.drop_drop] at hpost1
  have hpost' : (splitlines body).drop (i + 1 + k) = y :: rest := by
    rw [show i + 1 + k = (i + 1) + k by omega]
    exact hpost1
  have hlt : i + 1 + k < (splitlines body).length := by
    by_contra hle
    rw [List.drop_eq_nil_of_le (by omega)] at hpost'
    simp at hpost'
  have hl2 : splitlines (joinNL ((splitlines body).take i ++ [h, pyStrip c, []]
        ++ (splitlines body).drop (i + 1 + k)) ++ ['\n'])
      = ((splitlines body).take i ++ [h]) ++ splitlines (pyStrip c)
        ++ ([] :: (splitlines body).drop (i + 1 + k)) :=
    splitlines_section_mid i (i + 1 + k) Hhnl Hcne
  have hstart : findIdxAux (fun ln => h.isPrefixOf ln)
      (((splitlines body).take i ++ [h]) ++ splitlines (pyStrip c)
        ++ ([] :: (splitlines body).drop (i + 1 + k)))
      = some ((splitlines body).take i).length := by
    rw [show ((splitlines body).take i ++ [h]) ++ splitlines (pyStrip c)
          ++ ([] :: (splitlines body).drop (i + 1 + k))
        = (splitlines body).take i ++ h :: (splitlines (pyStrip c)
          ++ [] :: (splitlines body).drop (i + 1 + k)) by simp]
    exact findIdxAux_mk _ (findIdxAux_take hfound) (isPrefixOf_rfl h)
  have hdrop1 : (((splitlines body).take i ++ [h]) ++ splitlines (pyStrip c)
        ++ ([] :: (splitlines body).drop (i + 1 + k))).drop
          (((splitlines body).take i).length + 1)
      = splitlines (pyStrip c) ++ ([] :: (splitlines body).drop (i + 1 + k)) := by
    rw [show (((splitlines body).take i ++ [h]) ++ splitlines (pyStrip c)
          ++ ([] :: (splitlines body).drop (i + 1 + k)))
        = ((splitlines body).take i ++ [h]) ++ (splitlines (pyStrip c)
          ++ ([] :: (splitlines body).drop (i + 1 + k))) by simp]
    rw [show ((splitlines body).take i).length + 1
        = ((splitlines body).take i ++ [h]).length by simp]
    exact List.drop_left _ _
  have hterm2 : findIdxAux (isTerm (hashLevel h))
      (splitlines (pyStrip c) ++ ([] :: (splitlines body).drop (i + 1 + k)))
      = some ((splitlines (pyStrip c)).length + 1) := by
    rw [hpost', show splitlines (pyStrip c) ++ ([] :: y :: rest)
        = (splitlines (pyStrip c) ++ [[]]) ++ y :: rest by simp]
    have hall : ∀ l ∈ splitlines (pyStrip c) ++ [[]], isTerm (hashLevel h) l = false := by
      intro l hl
      rcases List.mem_append.mp hl with hl | hl
      · exact Hcl l hl
      · rw [List.mem_singleton.mp hl]
        rfl
    rw [findIdxAux_mk rest hall hy]
    simp
  have htake : (((splitlines body).take i ++ [h]) ++ splitlines (pyStrip c)
        ++ ([] :: (splitlines body).drop (i + 1 + k))).take
          (((splitlines body).take i).length)
      = (splitlines body).take i := by
    rw [show (((splitlines body).take i ++ [h]) ++ splitlines (pyStrip c)
          ++ ([] :: (splitlines body).drop (i + 1 + k)))
        = (splitlines body).take i ++ ([h] ++ (splitlines (pyStrip c)
          ++ ([] :: (splitlines body).drop (i + 1 + k)))) by simp]
    exact List.take_left _ _
  have hdrop2 : (((splitlines body).take i ++ [h]) ++ splitlines (pyStrip c)
        ++ ([] :: (splitlines body).drop (i + 1 + k))).drop
          (((splitlines body).take i).length + 1 + ((splitlines (pyStrip c)).length + 1))
      = (splitlines body).drop (i + 1 + k) := by
    rw [show (((splitlines body).take i ++ [h]) ++ splitlines (pyStrip c)
          ++ ([] :: (splitlines body).drop (i + 1 + k)))
        = (((splitlines body).take i ++ [h]) ++ splitlines (pyStrip c) ++ [[]])
          ++ (splitlines body).drop (i + 1 + k) by simp]
    rw [show ((splitlines body).take i).length + 1 + ((splitlines (pyStrip c)).length + 1)
        = (((splitlines body).take i ++ [h]) ++ splitlines (pyStrip c) ++ [[]]).length by
      simp
      omega]
    exact List.drop_left _ _
  unfold patchMd
  rw [hl2, hstart]
  show pyStrip (joinNL ((((splitlines body).take i ++ [h]) ++ splitlines (pyStrip c)
      ++ ([] :: (splitlines body).drop (i + 1 + k))).take ((splitlines body).take i).length
      ++ [h, pyStrip c, []]
      ++ (((splitlines body).take i ++ [h]) ++ splitlines (pyStrip c)
        ++ ([] :: (splitlines body).drop (i + 1 + k))).drop
        (match findIdxAux (isTerm (hashLevel h))
          ((((splitlines body).take i ++ [h]) ++ splitlines (pyStrip c)
            ++ ([] :: (splitlines body).drop (i + 1 + k))).drop
              (((splitlines body).take i).length + 1)) with
         | some k' => ((splitlines body).take i).length + 1 + k'
         | none => (((splitlines body).take i ++ [h]) ++ splitlines (pyStrip c)
            ++ ([] :: (splitlines body).drop (i + 1 + k))).length))) ++ ['\n'] = _
  rw [hdrop1, hterm2]
  show pyStrip (joinNL ((((splitlines body).take i ++ [h]) ++ splitlines (pyStrip c)
      ++ ([] :: (splitlines body).drop (i + 1 + k))).take ((splitlines body).take i).length
      ++ [h, pyStrip c, []]
      ++ (((splitlines body).take i ++ [h]) ++ splitlines (pyStrip c)
        ++ ([] :: (splitlines body).drop (i + 1 + k))).drop
        (((splitlines body).take i).length + 1
          + ((splitlines (pyStrip c)).length + 1)))) ++ ['\n'] = _
  rw [htake, hdrop2]
  rw [strip_section_mid i (i + 1 + k) Hh Hb Hbne hlt]

/-- Re-patching a first-run result whose section reached the end of the
body reproduces it exactly. -/
theorem patchMd_run2_end {body h c : List Char} {i : Nat}
    (Hh : ['#'].isPrefixOf h = true) (Hhnl : '\n' ∉ h)
    (Hb : pyStrip body = body) (Hbne : body ≠ [])
    (Hcne : pyStrip c ≠ [])
    (Hcl : ∀ l ∈ splitlines (pyStrip c), isTerm (hashLevel h) l = false)
    (hfound : findIdxAux (fun ln => h.isPrefixOf ln) (splitlines body) = some i) :
    patchMd (joinNL ((splitlines body).take i ++ [h, pyStrip c]) ++ ['\n']) h c
      = joinNL ((splitlines body).take i ++ [h, pyStrip c]) ++ ['\n'] := by
  have hl2 : splitlines (joinNL ((splitlines body).take i ++ [h, pyStrip c]) ++ ['\n'])
      = ((splitlines body).take i ++ [h]) ++ splitlines (pyStrip c) :=
    splitlines_section_end i Hhnl Hcne
  have hstart : findIdxAux (fun ln => h.isPrefixOf ln)
      (((splitlines body).take i ++ [h]) ++ splitlines (pyStrip c))
      = some ((splitlines body).take i).length := by
    rw [show ((splitlines body).take i ++ [h]) ++ splitlines (pyStrip c)
        = (splitlines body).take i ++ h :: splitlines (pyStrip c) by simp]
    exact findIdxAux_mk _ (findIdxAux_take hfound) (isPrefixOf_rfl h)
  have hdrop1 : (((splitlines body).take i ++ [h]) ++ splitlines (pyStrip c)).drop
        (((splitlines body).take i).length + 1)
      = splitlines (pyStrip c) := by
    rw [show ((splitlines body).take i).length + 1
        = ((splitlines body).take i ++ [h]).length by simp]
    exact List.drop_left _ _
  have hterm2 : findIdxAux (isTerm (hashLevel h)) (splitlines (pyStrip c)) = none :=
    findIdxAux_none Hcl
  have htake : (((splitlines body).take i ++ [h]) ++ splitlines (pyStrip c)).take
        (((splitlines body).take i).length)
      = (splitlines body).take i := by
    rw [show ((splitlines body).take i ++ [h]) ++ splitlines (pyStrip c)
        = (splitlines body).take i ++ ([h] ++ splitlines (pyStrip c)) by simp]
    exact List.take_left _ _
  unfold patchMd
  rw [hl2, hstart]
  show pyStrip (joinNL ((((splitlines body).take i ++ [h])
      ++ splitlines (pyStrip c)).take ((splitlines body).take i).length
      ++ [h, pyStrip c, []]
      ++ (((splitlines body).take i ++ [h]) ++ splitlines (pyStrip c)).drop
        (match findIdxAux (isTerm (hashLevel h))
          ((((splitlines body).take i ++ [h]) ++ splitlines (pyStrip c)).drop
            (((splitlines body).take i).length + 1)) with
         | some k' => ((splitlines body).take i).length + 1 + k'
         | none => (((splitlines body).take i ++ [h])
            ++ splitlines (pyStrip c)).length))) ++ ['\n'] = _
  rw [hdrop1, hterm2]
  show pyStrip (joinNL ((((splitlines body).take i ++ [h])
      ++ splitlines (pyStrip c)).take ((splitlines body).take i).length
      ++ [h, pyStrip c, []]
      ++ (((splitlines body).take i ++ [h]) ++ splitlines (pyStrip c)).drop
        (((splitlines body).take i ++ [h]) ++ splitlines (pyStrip c)).length))
      ++ ['\n'] = _
  rw [htake, List.drop_length, List.append_nil]
  rw [strip_section_end i Hh Hb Hbne Hcne]

/-- C9 (amended): `patch_markdown_section` is idempotent when the header
already occurs in the body and the inputs are regular (a `#`-header
without newlines, a whitespace-stripped nonempty body, and nonempty
stripped content containing no header line of level at most the patched
header's); when the header occurs on no line the new section is prepended
before the untouched body (but re-patching may then swallow leading body
lines, so idempotency fails there); and when the matched header is the
last header of equal-or-higher level the replaced section extends to the
end of the body. -/
theorem C9_patch_markdown_section (body header content : String) :
    (∀ i, findIdxAux (fun ln => header.data.isPrefixOf ln) (splitlines body.data)
        = some i →
      ['#'].isPrefixOf header.data = true → '\n' ∉ header.data →
      pyStrip body.data = body.data → body.data ≠ [] →
      pyStrip content.data ≠ [] →
      (∀ l ∈ splitlines (pyStrip content.data),
        isTerm (hashLevel header.data) l = false) →
      patch_markdown_section (patch_markdown_section body header content) header content
        = patch_markdown_section body header content) ∧
    ((∀ l ∈ splitlines body.data, header.data.isPrefixOf l = false) →
      ['#'].isPrefixOf header.data = true →
      pyStrip body.data = body.data → body.data ≠ [] →
      patch_markdown_section body header content
        = ⟨header.data ++ '\n' :: pyStrip content.data
            ++ '\n' :: '\n' :: body.data ++ ['\n']⟩) ∧
    (∀ i, findIdxAux (fun ln => header.data.isPrefixOf ln) (splitlines body.data)
        = some i →
      findIdxAux (isTerm (hashLevel header.data))
        ((splitlines body.data).drop (i + 1)) = none →
      ['#'].isPrefixOf header.data = true →
      pyStrip body.data = body.data → body.data ≠ [] → pyStrip content.data ≠ [] →
      patch_markdown_section body header content
        = ⟨joinNL ((splitlines body.data).take i
            ++ [header.data, pyStrip content.data]) ++ ['\n']⟩) := by
  refine ⟨?_, ?_, ?_⟩
  · intro i hfound Hh Hhnl Hb Hbne Hcne Hcl
    show (⟨patchMd (patchMd body.data header.data content.data) header.data content.data⟩
        : String) = ⟨patchMd body.data header.data content.data⟩
    apply congrArg String.mk
    cases hterm : findIdxAux (isTerm (hashLevel header.data))
        ((splitlines body.data).drop (i + 1)) with
    | none =>
      rw [patchMd_found_last Hh Hb Hbne Hcne hfound hterm]
      exact patchMd_run2_end Hh Hhnl Hb Hbne Hcne Hcl hfound
    | some k =>
      rw [patchMd_found_mid Hh Hb Hbne hfound hterm]
      exact patchMd_run2_mid Hh Hhnl Hb Hbne Hcne Hcl hfound hterm
  · intro hnp Hh Hb Hbne
    apply congrArg String.mk
    exact patchMd_prepend Hh Hb Hbne (findIdxAux_none hnp)
  · intro i hfound hterm Hh Hb Hbne Hcne
    apply congrArg String.mk
    exact patchMd_found_last Hh Hb Hbne Hcne hfound hterm

/-- C9 witness: idempotency on a found header followed by another header,
the prepend closed form on a header-free body, and the replace-to-end
closed form when the matched header is last. -/
theorem C9_patch_markdown_section_witness :
    patch_markdown_section
        (patch_markdown_section "x\n## H\nold\n# K\ny" "## H" "c") "## H" "c"
      = patch_markdown_section "x\n## H\nold\n# K\ny" "## H" "c" ∧
    patch_markdown_section "abc" "## H" "c"
      = ⟨("## H" : String).data ++ '\n' :: pyStrip ("c" : String).data
          ++ '\n' :: '\n' :: ("abc" : String).data ++ ['\n']⟩ ∧
    patch_markdown_section "x\n## H\nold" "## H" "c"
      = ⟨joinNL ((splitlines ("x\n## H\nold" : String).data).take 1
          ++ [("## H" : String).data, pyStrip ("c" : String).data]) ++ ['\n']⟩ := by
  refine ⟨?_, ?_, ?_⟩
  · exact (C9_patch_markdown_section "x\n## H\nold\n# K\ny" "## H" "c").1 1
      (by decide) (by decide) (by decide) (by decide) (by decide) (by decide) (by decide)
  · exact (C9_patch_markdown_section "abc" "## H" "c").2.1
      (by decide) (by decide) (by decide) (by decide)
  · exact (C9_patch_markdown_section "x\n## H\nold" "## H" "c").2.2 1
      (by decide) (by decide) (by decide) (by decide) (by decide) (by decide)

/-! ## Claim C8: `UserAbort` behaviour (tools/create_release.py, lines
131-144, 233-249, 986-1007)

The `lib.stage` module itself is not part of the sources; its exception
classes are modelled from the spec. -/

/-- GitHub API mutations performed while aborting to the user. -/
inductive ApiCall where
  | issue_unassign (issue : Nat) (users : List String)
  | issue_assign (issue : Nat) (users : List String)
  | update_dashboard
deriving DecidableEq

/-- `Releaser.assign_to_user`: unassign the release bot, assign the acting
user, refresh the dashboard, and produce the `UserAbort` message
`"Returning to the user to <action>"`. -/
def assign_to_user (issue : Nat) (actor : String) (action : String) :
    List ApiCall × String :=
  ([ApiCall.issue_unassign issue ["toktok-releaser"],
    ApiCall.issue_assign issue [actor],
    ApiCall.update_dashboard],
   "Returning to the user to " ++ action)

/-- Modelled from the spec: the `lib.stage` signal taxonomy — `UserAbort`
is a benign hand-back-to-a-human signal carrying an instruction,
`InvalidState`/errors are failures.  `ok` carries the back-filled
`production` flag. -/
inductive InitOutcome where
  | ok (production : Bool)
  | userAbort (message : String)
  | error (message : String)
deriving DecidableEq

/-- The API calls performed by `stage_init` together with its outcome. -/
structure InitResult where
  calls : List ApiCall
  outcome : InitOutcome
deriving DecidableEq

/-- The tracking-issue fields `stage_init` reads. -/
structure IssueData where
  title : String
  body : String
  assignees : List String

/-- `Releaser.stage_init`: an issue number is mandatory under GitHub
Actions; with an issue, abort to the user when it is not assigned to
`toktok-releaser` (without touching assignees) or — via `assign_to_user`,
swapping the assignee first — when its title is not a release tracking
issue; otherwise back-fill `production` from a literal body line. -/
def stage_init (githubActions : Bool) (issueNum : Nat) (issue : IssueData)
    (actor : String) (cfgProduction : Bool) : InitResult :=
  if githubActions && issueNum == 0 then
    ⟨[], .error "Issue number is required when running in GitHub Actions"⟩
  else if issueNum == 0 then ⟨[], .ok cfgProduction⟩
  else if !issue.assignees.contains "toktok-releaser" then
    ⟨[], .userAbort "Assign the issue to toktok-releaser"⟩
  else if !("Release tracking issue".isPrefixOf issue.title) then
    let r := assign_to_user issueNum actor "deal with the issue"
    ⟨r.1, .userAbort r.2⟩
  else ⟨[], .ok (strSplitlinesContains issue.body "Production release")⟩

/-- The possible outcomes of `Releaser.run_stages` as seen by `main`. -/
inductive RunOutcome where
  | ok
  | userAbort (message : String)
  | invalidState (message : String)
deriving DecidableEq

/-- What `main` leaves behind: the printed instruction (if any) and
whether the process exits successfully. -/
structure MainResult where
  printed : Option String
  exitOk : Bool
deriving DecidableEq

/-- `main` (tools/create_release.py, lines 986-1007): `UserAbort` is
caught, its message printed, and the function returns normally (exit code
0); any other exception propagates out of `main` and the process exits
non-zero (Python uncaught-exception convention). -/
def main_handle : RunOutcome → MainResult
  | .ok => ⟨none, true⟩
  | .userAbort m => ⟨some m, true⟩
  | .invalidState _ => ⟨none, false⟩

/-- C8 counterexample: an issue assigned to `alice` instead of the bot —
`stage_init` raises `UserAbort` with no assignee mutation at all, so not
every `UserAbort` has the assignee swapped before propagating. -/
theorem C8_counterexample :
    stage_init false 1 ⟨"Release tracking issue: v1.0.0", "", ["alice"]⟩ "bob" false
      = ⟨[], .userAbort "Assign the issue to toktok-releaser"⟩ := by
  decide

/-- C8 (amended): every `UserAbort` raised through `assign_to_user` — the
not-a-release-issue abort in `stage_init` and all later hand-back stages —
has the tracking issue's assignee swapped from `toktok-releaser` to the
invoking human (and the dashboard refreshed) before the signal leaves the
stage; the sole exception is the `stage_init` abort for an issue not yet
assigned to the bot, which performs no mutation.  At top level `UserAbort`
prints its instruction and `main` returns normally with a success exit. -/
theorem C8_user_abort (issueNum : Nat) (issue : IssueData) (actor : String)
    (cfgProduction : Bool) (hnum : issueNum ≠ 0)
    (hbot : issue.assignees.contains "toktok-releaser" = true)
    (htitle : ("Release tracking issue".isPrefixOf issue.title) = false) :
    (∀ i a act, (assign_to_user i a act).1
        = [ApiCall.issue_unassign i ["toktok-releaser"], ApiCall.issue_assign i [a],
           ApiCall.update_dashboard]) ∧
      stage_init false issueNum issue actor cfgProduction
        = ⟨[ApiCall.issue_unassign issueNum ["toktok-releaser"],
            ApiCall.issue_assign issueNum [actor], ApiCall.update_dashboard],
           .userAbort "Returning to the user to deal with the issue"⟩ ∧
      (∀ m, main_handle (.userAbort m) = ⟨some m, true⟩) := by
  refine ⟨fun _ _ _ => rfl, ?_, fun _ => rfl⟩
  have h0 : (issueNum == 0) = false := by simpa using hnum
  unfold stage_init
  rw [show (false && issueNum == 0) = false from rfl, h0, hbot, htitle]
  rfl

/-- C8 witness: a bot-assigned issue whose title is not a release tracking
issue, at concrete inputs. -/
theorem C8_user_abort_witness :
    stage_init false 1 ⟨"Some other issue", "", ["toktok-releaser"]⟩ "bob" false
        = ⟨[ApiCall.issue_unassign 1 ["toktok-releaser"], ApiCall.issue_assign 1 ["bob"],
            ApiCall.update_dashboard],
           .userAbort "Returning to the user to deal with the issue"⟩ ∧
      main_handle (.userAbort "Returning to the user to deal with the issue")
        = ⟨some "Returning to the user to deal with the issue", true⟩ := by
  have h := C8_user_abort 1 ⟨"Some other issue", "", ["toktok-releaser"]⟩ "bob" false
    (by decide) (by decide) (by decide)
  exact ⟨h.2.1, h.2.2 _⟩

/-! ## Claim C7: `stage_await_checks` (tools/create_release.py, lines
599-648) -/

/-- The check-run fields `stage_await_checks` reads. -/
structure CheckRun where
  name : String
  status : String
  conclusion : String

/-- Modelled from the spec: a stage's terminal outcome — `ok` succeeds,
`fail` raises the structured stage failure (`InvalidState`), `error` is an
uncaught Python exception. -/
inductive StageOutcome where
  | ok (msg : String)
  | fail (msg : String)
  | error (msg : String)
deriving DecidableEq

/-- `sep.join(...)`. -/
def joinSep (sep : String) : List String → String
  | [] => ""
  | [x] => x
  | x :: y :: ys => x ++ sep ++ joinSep sep (y :: ys)

/-- `del checks[name]`: remove the named check, `none` (a `KeyError`) when
it is absent. -/
def removeCheck (name : String) (cs : List CheckRun) : Option (List CheckRun) :=
  if cs.any (fun c => c.name == name) then
    some (cs.filter (fun c => !(c.name == name)))
  else none

/-- The names of checks with conclusion `failure`, in listing order. -/
def failureNames (cs : List CheckRun) : List String :=
  (cs.filter (fun c => c.conclusion == "failure")).map (·.name)

/-- The names of checks with status `completed`, in listing order. -/
def completedNames (cs : List CheckRun) : List String :=
  (cs.filter (fun c => c.status == "completed")).map (·.name)

/-- `"common / restyled" in checks and checks["common / restyled"].conclusion
== "failure"`. -/
def hasRestyledFailure (cs : List CheckRun) : Bool :=
  match cs.find? (fun c => c.name == "common / restyled") with
  | some c => c.conclusion == "failure"
  | none => false

/-- An observation terminates the polling: some check runs exist and every
one of them is completed. -/
def settledChecks (cs : List CheckRun) : Bool :=
  !cs.isEmpty && ((completedNames cs).length == cs.length)

/-- The body of the `for _ in range(120)` loop of `stage_await_checks`.
`obs i` is the check listing for the PR head commit at poll iteration `i`
(the PR is re-fetched each round; its url is `prUrl`); `restyleAbort i`
is the failure the nested restyle sub-flow raises at iteration `i`, or
`none` when the sub-flow completes.  Exhausted fuel is the timeout
failure. -/
def await_checks_go (verify : Bool) (prUrl : String) (obs : Nat → List CheckRun)
    (restyleAbort : Nat → Option String) : Nat → Nat → StageOutcome
  | 0, _ => .fail "Timeout waiting for checks to pass"
  | fuel + 1, i =>
    let checks0 := obs i
    if checks0.isEmpty then await_checks_go verify prUrl obs restyleAbort fuel (i + 1)
    else
      match (if verify then removeCheck "Verify release/signatures" checks0
             else some checks0) with
      | none => .error "KeyError"
      | some checks =>
        if (completedNames checks).length == checks.length then
          if !(failureNames checks).isEmpty then
            .fail (natStr (failureNames checks).length ++ " checks failed on "
              ++ prUrl ++ ": " ++ joinSep ", " (failureNames checks))
          else .ok ("All " ++ natStr (completedNames checks).length ++ " checks passed")
        else
          if hasRestyledFailure checks then
            match restyleAbort i with
            | some m => .fail m
            | none => await_checks_go verify prUrl obs restyleAbort fuel (i + 1)
          else await_checks_go verify prUrl obs restyleAbort fuel (i + 1)

/-- `Releaser.stage_await_checks`: 120 polling iterations. -/
def stage_await_checks (verify : Bool) (prUrl : String) (obs : Nat → List CheckRun)
    (restyleAbort : Nat → Option String) : StageOutcome :=
  await_checks_go verify prUrl obs restyleAbort 120 0

theorem settledChecks_false_cases {cs : List CheckRun}
    (h : settledChecks cs = false) (hne : cs.isEmpty = false) :
    ((completedNames cs).length == cs.length) = false := by
  unfold settledChecks at h
  rw [hne] at h
  simpa using h

theorem await_checks_go_timeout (prUrl : String) (obs : Nat → List CheckRun)
    (restyleAbort : Nat → Option String) (hres : ∀ j, restyleAbort j = none) :
    ∀ fuel i, (∀ j, i ≤ j → j < i + fuel → settledChecks (obs j) = false) →
      await_checks_go false prUrl obs restyleAbort fuel i
        = .fail "Timeout waiting for checks to pass" := by
  intro fuel
  induction fuel with
  | zero => intro i _; rfl
  | succ fuel ih =>
    intro i h
    have hrec := ih (i + 1) (fun j hj1 hj2 => h j (by omega) (by omega))
    have hi : settledChecks (obs i) = false := h i le_rfl (by omega)
    show (if (obs i).isEmpty then _ else _) = _
    by_cases he : (obs i).isEmpty = true
    · rw [if_pos he]
      exact hrec
    · have he' : (obs i).isEmpty = false := by simpa using he
      rw [if_neg (by simp [he'])]
      have hcomp := settledChecks_false_cases hi he'
      show (match some (obs i) with
            | none => StageOutcome.error "KeyError"
            | some checks => _) = _
      simp only []
      rw [hcomp]
      simp only [Bool.false_eq_true, if_false]
      by_cases hrf : hasRestyledFailure (obs i) = true
      · rw [if_pos hrf, hres i]
        exact hrec
      · rw [if_neg hrf]
        exact hrec

theorem await_checks_go_settled (prUrl : String) (obs : Nat → List CheckRun)
    (restyleAbort : Nat → Option String) (hres : ∀ j, restyleAbort j = none) :
    ∀ fuel i k, k < fuel → settledChecks (obs (i + k)) = true →
      (∀ j, i ≤ j → j < i + k → settledChecks (obs j) = false) →
      await_checks_go false prUrl obs restyleAbort fuel i
        = (if (failureNames (obs (i + k))).isEmpty then
            .ok ("All " ++ natStr (completedNames (obs (i + k))).length
              ++ " checks passed")
           else
            .fail (natStr (failureNames (obs (i + k))).length ++ " checks failed on "
              ++ prUrl ++ ": " ++ joinSep ", " (failureNames (obs (i + k))))) := by
  intro fuel
  induction fuel with
  | zero => intro i k hk; omega
  | succ fuel ih =>
    intro i k hk hset hbef
    cases k with
    | zero =>
      rw [Nat.add_zero] at hset
      have hne : (obs i).isEmpty = false := by
        unfold settledChecks at hset
        cases h : (obs i).isEmpty with
        | false => rfl
        | true => rw [h] at hset; simp at hset
      have hcomp : ((completedNames (obs i)).length == (obs i).length) = true := by
        unfold settledChecks at hset
        rw [hne] at hset
        simpa using hset
      show (if (obs i).isEmpty then _ else _) = _
      rw [if_neg (by simp [hne])]
      show (match some (obs i) with
            | none => StageOutcome.error "KeyError"
            | some checks => _) = _
      simp only []
      by_cases hf : (failureNames (obs i)).isEmpty = true
      · simp [hcomp, hf]
      · have hf' : (failureNames (obs i)).isEmpty = false := by simpa using hf
        simp [hcomp, hf']
    | succ k =>
      have hi : settledChecks (obs i) = false := hbef i le_rfl (by omega)
      have hrec := ih (i + 1) k (by omega)
        (by rw [show i + 1 + k = i + (k + 1) by omega]; exact hset)
        (fun j hj1 hj2 => hbef j (by omega) (by omega))
      show (if (obs i).isEmpty then _ else _) = _
      by_cases he : (obs i).isEmpty = true
      · rw [if_pos he]
        rw [hrec]
        rw [show i + 1 + k = i + (k + 1) by omega]
      · have he' : (obs i).isEmpty = false := by simpa using he
        rw [if_neg (by simp [he'])]
        have hcomp := settledChecks_false_cases hi he'
        show (match some (obs i) with
              | none => StageOutcome.error "KeyError"
              | some checks => _) = _
        simp only []
        rw [hcomp]
        simp only [Bool.false_eq_true, if_false]
        have htail : await_checks_go false prUrl obs restyleAbort fuel (i + 1)
            = _ := hrec
        by_cases hrf : hasRestyledFailure (obs i) = true
        · rw [if_pos hrf, hres i, hrec, show i + 1 + k = i + (k + 1) by omega]
        · rw [if_neg hrf, hrec, show i + 1 + k = i + (k + 1) by omega]

/-- C7: with the restyle sub-flow never aborting (and not in verify mode),
the await-checks loop keeps polling while any check run is not yet
completed; at the first iteration where every run is completed it fails —
when any check concluded `failure` — with a message listing every failing
check's name joined by `", "`, succeeds otherwise, and exhausting the
120-iteration budget raises the timeout failure. -/
theorem C7_await_checks (prUrl : String) (obs : Nat → List CheckRun)
    (restyleAbort : Nat → Option String) (hres : ∀ j, restyleAbort j = none) :
    ((∀ j, j < 120 → settledChecks (obs j) = false) →
        stage_await_checks false prUrl obs restyleAbort
          = .fail "Timeout waiting for checks to pass") ∧
      (∀ i, i < 120 → settledChecks (obs i) = true →
        (∀ j, j < i → settledChecks (obs j) = false) →
        stage_await_checks false prUrl obs restyleAbort
          = (if (failureNames (obs i)).isEmpty then
              .ok ("All " ++ natStr (completedNames (obs i)).length ++ " checks passed")
             else
              .fail (natStr (failureNames (obs i)).length ++ " checks failed on "
                ++ prUrl ++ ": " ++ joinSep ", " (failureNames (obs i))))) := by
  constructor
  · intro h
    exact await_checks_go_timeout prUrl obs restyleAbort hres 120 0
      (fun j _ hj2 => h j (by omega))
  · intro i hi hset hbef
    have h := await_checks_go_settled prUrl obs restyleAbort hres 120 0 i hi
      (by simpa using hset) (fun j _ hj2 => hbef j (by omega))
    simpa using h

/-- C7 witness: two completed-failed checks produce the comma-joined
failure message; a permanently in-progress check exhausts the budget into
the timeout failure. -/
theorem C7_await_checks_witness :
    stage_await_checks false "u"
        (fun _ => [⟨"a", "completed", "failure"⟩, ⟨"b", "completed", "failure"⟩])
        (fun _ => none)
        = .fail "2 checks failed on u: a, b" ∧
      stage_await_checks false "u" (fun _ => [⟨"a", "in_progress", ""⟩])
        (fun _ => none)
        = .fail "Timeout waiting for checks to pass" := by
  constructor
  · have h := (C7_await_checks "u"
      (fun _ => [⟨"a", "completed", "failure"⟩, ⟨"b", "completed", "failure"⟩])
      (fun _ => none) (fun _ => rfl)).2 0 (by omega) (by decide)
      (fun j hj => absurd hj (Nat.not_lt_zero j))
    rw [h]
    decide
  · exact (C7_await_checks "u" (fun _ => [⟨"a", "in_progress", ""⟩])
      (fun _ => none) (fun _ => rfl)).1 (fun j _ => by decide)

/-! ## Claim C6: release-candidate version computation in `stage_version`
(tools/create_release.py, lines 251-291; tools/lib/github.py, lines
465-479) -/

/-- The fields of a GitHub release object that
`GitHub.prereleases`/`release_candidates` read. -/
structure ReleaseInfo where
  tag_name : String
  prerelease : Bool
  draft : Bool

/-- `GitHub.prereleases`: tag names of published (non-draft) prereleases
whose tag contains `{version}-rc.` as a substring. -/
def prereleases (version : String) (rels : List ReleaseInfo) : List String :=
  (rels.filter (fun r =>
    strContains (version ++ "-rc.") r.tag_name && r.prerelease && !r.draft)).map
    (·.tag_name)

/-- `re.findall(r"-rc\.(\d+)$", tag)` as numbers: the maximal digit suffix
when it is nonempty and preceded by `-rc.` (at most one match, anchored at
the end). -/
def rcEndNum (l : List Char) : List Nat :=
  let rev := l.reverse
  let ds := rev.takeWhile Char.isDigit
  if ds.isEmpty then []
  else if ['.', 'c', 'r', '-'].isPrefixOf (rev.drop ds.length) then
    [digitsToNat ds.reverse]
  else []

/-- `GitHub.release_candidates`: the rc numbers of the published
prereleases of a version. -/
def release_candidates (version : String) (rels : List ReleaseInfo) : List Nat :=
  (prereleases version rels).flatMap (fun t => rcEndNum t.data)

/-- The tracking-issue title that encodes a version. -/
def issueTitlePrefix : String := "Release tracking issue: "

/-- The external observations `stage_version` makes. -/
structure VersionEnv where
  issueTitle : Option String
  latestRelease : String
  nextMilestoneTitle : String
  releases : List ReleaseInfo

/-- `Releaser.stage_version` after the fetch stage: adopt an
issue-title-encoded version when present (`title.split(": ", 1)[1]`, which
under the prefix guard is dropping the prefix); use an explicit override
after regex validation, resolving the sentinel `latest`; otherwise take
the next milestone title, appending `-rc.<max existing rc + 1>` for
non-production runs.  `none` models the `require` failure paths. -/
def stage_version (cfgVersion : String) (production : Bool)
    (env : VersionEnv) : Option String :=
  let v : String :=
    match env.issueTitle with
    | some t =>
      if issueTitlePrefix.isPrefixOf t then t.drop issueTitlePrefix.length
      else cfgVersion
    | none => cfgVersion
  if v.isEmpty then
    let base := env.nextMilestoneTitle
    let version :=
      if !production then
        base ++ "-rc." ++ natStr ((release_candidates base env.releases).foldl max 0 + 1)
      else base
    if versionRegexMatch version then some version else none
  else if v == "latest" then some env.latestRelease
  else if versionRegexMatch v then some v else none

theorem le_foldl_max (l : List Nat) (a : Nat) : a ≤ l.foldl max a := by
  induction l generalizing a with
  | nil => simp
  | cons x xs ih => exact le_trans (le_max_left a x) (ih (max a x))

theorem mem_le_foldl_max (l : List Nat) (a : Nat) : ∀ n ∈ l, n ≤ l.foldl max a := by
  induction l generalizing a with
  | nil => simp
  | cons x xs ih =>
    intro n hn
    rcases List.mem_cons.mp hn with rfl | hn
    · exact le_trans (le_max_right a n) (le_foldl_max xs _)
    · exact ih (max a x) n hn

/-- C6: with no issue-encoded version, no override and a non-production
run, the computed version is the next milestone title with `-rc.<N+1>`
appended, where N is the greatest rc number among the published
prereleases of that version (`max(..., default=0)`, so 0 — and hence
`-rc.1` — when none exist). -/
theorem C6_stage_version_rc (cfgVersion : String) (env : VersionEnv)
    (hover : cfgVersion = "")
    (hissue : ∀ t, env.issueTitle = some t → issueTitlePrefix.isPrefixOf t = false)
    (M m p : Nat) (htitle : env.nextMilestoneTitle = versionStr ⟨M, m, p, none⟩) :
    stage_version cfgVersion false env
        = some (env.nextMilestoneTitle ++ "-rc."
            ++ natStr ((release_candidates env.nextMilestoneTitle env.releases).foldl
                max 0 + 1)) ∧
      (∀ n ∈ release_candidates env.nextMilestoneTitle env.releases,
        n ≤ (release_candidates env.nextMilestoneTitle env.releases).foldl max 0) ∧
      (release_candidates env.nextMilestoneTitle env.releases = [] →
        (release_candidates env.nextMilestoneTitle env.releases).foldl max 0 = 0) := by
  refine ⟨?_, mem_le_foldl_max _ 0, ?_⟩
  · have hv : (match env.issueTitle with
        | some t =>
          if issueTitlePrefix.isPrefixOf t then t.drop issueTitlePrefix.length
          else cfgVersion
        | none => cfgVersion) = "" := by
      cases ht : env.issueTitle with
      | none => exact hover
      | some t =>
        show (if issueTitlePrefix.isPrefixOf t = true then t.drop issueTitlePrefix.length
              else cfgVersion) = ""
        rw [hissue t ht]
        simpa using hover
    set N := (release_candidates env.nextMilestoneTitle env.releases).foldl max 0
    have hmatch : versionRegexMatch
        (env.nextMilestoneTitle ++ "-rc." ++ natStr (N + 1)) = true := by
      unfold versionRegexMatch parse_version
      rw [show (env.nextMilestoneTitle ++ "-rc." ++ natStr (N + 1)).data
          = env.nextMilestoneTitle.data ++ ('-' :: 'r' :: 'c' :: '.' :: natRepr (N + 1))
          by
        rw [String.data_append, String.data_append,
          show ("-rc." : String).data = ['-', 'r', 'c', '.'] from rfl,
          show (natStr (N + 1)).data = natRepr (N + 1) from rfl]
        simp]
      rw [htitle, show (versionStr ⟨M, m, p, none⟩).data
            ++ ('-' :: 'r' :: 'c' :: '.' :: natRepr (N + 1))
          = (versionStr ⟨M, m, p, some (N + 1)⟩).data by rw [rc_str_decompose]]
      rw [show (versionStr ⟨M, m, p, some (N + 1)⟩).data
          = Version.str ⟨M, m, p, some (N + 1)⟩ from rfl]
      rw [parseVersionChars_str]
      rfl
    unfold stage_version
    rw [hv]
    simp [hmatch, show ("" : String).isEmpty = true from rfl]
  · intro hnil
    rw [hnil]
    rfl

/-- C6 witness: the spec scenario — next milestone `v1.3.0`, one published
prerelease `v1.3.0-rc.1`, production false — computes `v1.3.0-rc.2`; and
with no prereleases at all the first candidate is `v1.3.0-rc.1`. -/
theorem C6_stage_version_rc_witness :
    stage_version "" false ⟨none, "", "v1.3.0", [⟨"v1.3.0-rc.1", true, false⟩]⟩
        = some "v1.3.0-rc.2" ∧
      stage_version "" false ⟨none, "", "v1.3.0", []⟩ = some "v1.3.0-rc.1" := by
  constructor
  · have h := (C6_stage_version_rc "" ⟨none, "", "v1.3.0", [⟨"v1.3.0-rc.1", true, false⟩]⟩
      rfl (by intro t ht; cases ht) 1 3 0 (by decide)).1
    rw [h]
    decide
  · have h := (C6_stage_version_rc "" ⟨none, "", "v1.3.0", []⟩
      rfl (by intro t ht; cases ht) 1 3 0 (by decide)).1
    rw [h]
    decide

end CiTools
